import Mathlib

/-!
Verification of the grid-search decision engine of the Dubu_AI_Snake repository.

The Python source is embedded shallowly:
* `Direction`, `is_collision`, `turn_cost`, `heuristic` are direct translations;
* the A-star search and the two BFS routines are embedded as fuel-indexed
  loops over explicit queue/heap states; the fuel is chosen so that it
  provably dominates a decreasing measure of the loop, hence is never
  exhausted (the `Option.getD` defaults are unreachable);
* Python dict `g_costs` is modelled as an association list, Python set
  `visited` as a `Finset`;
* `cost_function.py` does not import `deque` (its only imports are `typing`
  and `enum`), so every call of `calculate_action_cost` that survives the
  collision check reaches the expression `deque(snake_body)` and raises
  `NameError`.  The embedding returns `Except PyErr` and models that code
  point as `.error .nameErrorDeque`.
-/

namespace SnakeSpec

/-- A board cell: the Python tuple `(x, y)` of unbounded integers. -/
abbrev Pos := ℤ × ℤ

/-- The `Direction` enum, declared identically in snake_env.py, cost_function.py,
safety_logic.py, path_planning.py and state_perception.py. -/
inductive Direction where
  | UP
  | DOWN
  | LEFT
  | RIGHT
deriving DecidableEq, Fintype

/-- `Direction.value`: the unit delta of each direction. -/
def Direction.value : Direction → Pos
  | .UP => (0, -1)
  | .DOWN => (0, 1)
  | .LEFT => (-1, 0)
  | .RIGHT => (1, 0)

/-- Iteration order of `for d in Direction` (Python enum declaration order). -/
def dirList : List Direction := [.UP, .DOWN, .LEFT, .RIGHT]

/-- The move `(x + dx, y + dy)` used throughout the source. -/
def moveD (p : Pos) (d : Direction) : Pos := (p.1 + d.value.1, p.2 + d.value.2)

/-- The Python bounds check `0 <= x < size and 0 <= y < size`. -/
def InB (size : ℤ) (p : Pos) : Prop :=
  0 ≤ p.1 ∧ p.1 < size ∧ 0 ≤ p.2 ∧ p.2 < size

instance (size : ℤ) (p : Pos) : Decidable (InB size p) :=
  inferInstanceAs (Decidable (0 ≤ p.1 ∧ p.1 < size ∧ 0 ≤ p.2 ∧ p.2 < size))

/-- safety_logic.is_collision: wall collision, then membership in
`list(snake_body)[:-1]` (the body with its last element, the tail, dropped). -/
def is_collision (pos : Pos) (size : ℤ) (snake_body : List Pos) : Bool :=
  if ¬ InB size pos then true
  else if pos ∈ snake_body.dropLast then true
  else false

/-- The `opposite_directions` dict of cost_function.turn_cost. -/
def oppositeDir : Direction → Direction
  | .UP => .DOWN
  | .DOWN => .UP
  | .LEFT => .RIGHT
  | .RIGHT => .LEFT

/-- cost_function.turn_cost: 0 straight, 1000000 for a reversal, 1 for a 90 degree turn. -/
def turn_cost (current_dir next_dir : Direction) : ℤ :=
  if current_dir = next_dir then 0
  else if oppositeDir current_dir = next_dir then 1000000
  else 1

/-- path_planning.heuristic: Manhattan distance. -/
def heuristic (a b : Pos) : ℕ := (a.1 - b.1).natAbs + (a.2 - b.2).natAbs

/-- Obstacle set of a_star_search: `set(snake_body)` with `goal` and then `start`
discarded (membership in the list models membership in the set). -/
def astarObstacles (snake_body : List Pos) (start goal : Pos) : List Pos :=
  snake_body.filter (fun p => decide (p ≠ goal) && decide (p ≠ start))

/-- One heapq entry `(f_cost, g_cost, current_node, path_so_far)` of a_star_search. -/
structure Entry where
  f : ℕ
  g : ℕ
  pos : Pos
  path : List Pos
deriving DecidableEq

/-- Lexicographic key realising the Python tuple comparison used by heapq. -/
def entryKey (e : Entry) : ℕ ×ₗ (ℕ ×ₗ ((ℤ ×ₗ ℤ) ×ₗ List (ℤ ×ₗ ℤ))) :=
  toLex (e.f, toLex (e.g, toLex (toLex e.pos, e.path.map toLex)))

/-- heapq.heappop: removes the least entry under the Python tuple order.
Distinct live entries never share a key, so taking the first minimiser
coincides with the heap behaviour. -/
def popMin (l : List Entry) : Option (Entry × List Entry) :=
  match l.argmin entryKey with
  | none => none
  | some e => some (e, l.erase e)

/-- Lookup in the `g_costs` dict, modelled as an association list. -/
def gcLookup (gc : List (Pos × ℕ)) (p : Pos) : Option ℕ :=
  match gc.find? (fun q => decide (q.1 = p)) with
  | none => none
  | some q => some q.2

/-- Assignment `g_costs[p] = n`: replace the existing binding or append a new one. -/
def gcInsert (gc : List (Pos × ℕ)) (p : Pos) (n : ℕ) : List (Pos × ℕ) :=
  match gc with
  | [] => [(p, n)]
  | q :: rest => if q.1 = p then (p, n) :: rest else q :: gcInsert rest p n

/-- Body of the inner `for dx, dy in [d.value for d in Direction]` loop of
a_star_search, for a single direction: bounds check, obstacle check, then the
edge relaxation `neighbor not in g_costs or new_g < g_costs[neighbor]`. -/
def astarRelax (size : ℤ) (goal : Pos) (obst : List Pos) (e : Entry)
    (st : List Entry × List (Pos × ℕ)) (d : Direction) :
    List Entry × List (Pos × ℕ) :=
  let np := moveD e.pos d
  if ¬ InB size np then st
  else if np ∈ obst then st
  else
    let ng := e.g + 1
    match gcLookup st.2 np with
    | some old =>
      if ng < old then
        (st.1 ++ [⟨ng + heuristic np goal, ng, np, e.path ++ [e.pos]⟩], gcInsert st.2 np ng)
      else st
    | none =>
      (st.1 ++ [⟨ng + heuristic np goal, ng, np, e.path ++ [e.pos]⟩], gcInsert st.2 np ng)

/-- The `while open_set:` loop of a_star_search, fuel-indexed.  The outer `none`
means the fuel ran out; `a_star_search` uses a fuel that provably suffices. -/
def aStarLoop (size : ℤ) (goal : Pos) (obst : List Pos) :
    ℕ → List Entry → List (Pos × ℕ) → Option (Option (List Pos))
  | 0, _, _ => none
  | n + 1, openSet, gc =>
    match popMin openSet with
    | none => some none
    | some (e, rest) =>
      if e.pos = goal then some (some (e.path ++ [e.pos]))
      else
        let st := dirList.foldl (astarRelax size goal obst e) (rest, gc)
        aStarLoop size goal obst n st.1 st.2

/-- Fuel for `aStarLoop`, dominating its decreasing measure. -/
def astarFuel (size : ℤ) : ℕ :=
  4 + 2 * size.toNat ^ 2 * (size.toNat ^ 2 + 1) +
    (2 * size.toNat ^ 2 + 2) * (size.toNat ^ 2 + 1) + 2

/-- path_planning.a_star_search (lines 20-69). -/
def a_star_search (start goal : Pos) (size : ℤ) (snake_body : List Pos) :
    Option (List Pos) :=
  (aStarLoop size goal (astarObstacles snake_body start goal) (astarFuel size)
    [⟨0, 0, start, []⟩] [(start, 0)]).getD none

/-- Obstacles of find_reachable_areas_bfs: `set(snake_body)` with `food_pos` removed. -/
def reachObstacles (snake_body : List Pos) (food_pos : Pos) : List Pos :=
  snake_body.filter (fun p => decide (p ≠ food_pos))

/-- Body of the neighbour loop of find_reachable_areas_bfs for one direction:
bounds check, visited check, obstacle check, then enqueue and mark visited. -/
def bfsRelax (size : ℤ) (obst : List Pos) (c : Pos)
    (st : List Pos × Finset Pos) (d : Direction) : List Pos × Finset Pos :=
  let np := moveD c d
  if InB size np ∧ np ∉ st.2 ∧ np ∉ obst then (st.1 ++ [np], insert np st.2)
  else st

/-- The `while q:` loop of find_reachable_areas_bfs, fuel-indexed. -/
def reachLoop (size : ℤ) (obst : List Pos) :
    ℕ → List Pos → Finset Pos → ℕ → List Pos → Option (ℕ × List Pos)
  | 0, _, _, _, _ => none
  | n + 1, q, visited, count, cells =>
    match q with
    | [] => some (count, cells)
    | c :: qrest =>
      let st := dirList.foldl (bfsRelax size obst c) (qrest, visited)
      reachLoop size obst n st.1 st.2 (count + 1) (cells ++ [c])

/-- state_perception.find_reachable_areas_bfs (lines 65-108), re-defined verbatim
in safety_logic.py (lines 21-52): BFS flood count from `start_pos`. -/
def find_reachable_areas_bfs (start_pos : Pos) (size : ℤ) (snake_body : List Pos)
    (food_pos : Pos) : ℕ × List Pos :=
  (reachLoop size (reachObstacles snake_body food_pos) (size.toNat ^ 2 + 3)
    [start_pos] {start_pos} 0 []).getD (0, [])

/-- Obstacles of has_path_to_target_bfs: `set(snake_body)` with `target_pos`
and then `start_pos` discarded. -/
def hpObstacles (snake_body : List Pos) (start_pos target_pos : Pos) : List Pos :=
  snake_body.filter (fun p => decide (p ≠ target_pos) && decide (p ≠ start_pos))

/-- Neighbour loop body of has_path_to_target_bfs for one direction. -/
def hpRelax (size : ℤ) (obst : List Pos) (c : Pos) (path : List Pos)
    (st : List (Pos × List Pos) × Finset Pos) (d : Direction) :
    List (Pos × List Pos) × Finset Pos :=
  let np := moveD c d
  if InB size np ∧ np ∉ st.2 ∧ np ∉ obst then
    (st.1 ++ [(np, path ++ [np])], insert np st.2)
  else st

/-- The `while q:` loop of has_path_to_target_bfs, fuel-indexed. -/
def hpLoop (size : ℤ) (target : Pos) (obst : List Pos) :
    ℕ → List (Pos × List Pos) → Finset Pos → Option Bool
  | 0, _, _ => none
  | n + 1, q, visited =>
    match q with
    | [] => some false
    | (c, path) :: qrest =>
      if c = target then some true
      else
        let st := dirList.foldl (hpRelax size obst c path) (qrest, visited)
        hpLoop size target obst n st.1 st.2

/-- state_perception.has_path_to_target_bfs (lines 111-146), re-defined verbatim
in safety_logic.py (lines 55-87). -/
def has_path_to_target_bfs (start_pos target_pos : Pos) (size : ℤ)
    (snake_body : List Pos) : Bool :=
  (hpLoop size target_pos (hpObstacles snake_body start_pos target_pos)
    (size.toNat ^ 2 + 3) [(start_pos, [])] {start_pos}).getD false

/-- Python exceptions surfaced by the embedding. -/
inductive PyErr where
  | nameErrorDeque
deriving DecidableEq

deriving instance DecidableEq for Except

/-- A cost value: a finite (integer-valued) float, or float inf. -/
inductive CostVal where
  | inf
  | fin (z : ℤ)
deriving DecidableEq

/-- cost_function.calculate_action_cost (lines 42-112).  After the collision
short-circuit the code accumulates the turn term (line 71) and the path-to-food
term (lines 74-81); line 92 then evaluates `deque`, which cost_function.py never
imports, raising `NameError` before the final `return cost` can be reached. -/
def calculate_action_cost (current_head : Pos)
    (current_direction proposed_action : Direction) (snake_body : List Pos)
    (food_position : Pos) (board_size : ℤ) : Except PyErr CostVal :=
  let next_head := moveD current_head proposed_action
  if is_collision next_head board_size snake_body then .ok .inf
  else
    let cost1 : ℤ := turn_cost current_direction proposed_action * 5
    let _cost2 : ℤ :=
      match a_star_search next_head food_position board_size snake_body with
      | some path =>
        if path.isEmpty then cost1 + 1000
        else cost1 + path.length + (if path.length = 1 then -100 else 0)
      | none => cost1 + 1000
    .error .nameErrorDeque

/-- policy_agent.PolicyAgent.get_safe_actions: the directions whose next cell
passes is_collision, in declaration order. -/
def get_safe_actions (board_size : ℤ) (current_head : Pos)
    (snake_body : List Pos) : List Direction :=
  dirList.filter (fun a => ! is_collision (moveD current_head a) board_size snake_body)

/-- Python float comparison restricted to the cost values that occur. -/
def costLE : CostVal → CostVal → Bool
  | .inf, .inf => true
  | .inf, .fin _ => false
  | .fin _, .inf => true
  | .fin a, .fin b => decide (a ≤ b)

/-- `action_costs.sort(key cost)` followed by taking element 0: since the
Python sort is stable this is the first entry of minimal cost. -/
def selectBest : List (Direction × CostVal) → Option (Direction × CostVal)
  | [] => none
  | x :: rest =>
    match selectBest rest with
    | none => some x
    | some y => if costLE x.2 y.2 then some x else some y

/-- policy_agent.PolicyAgent.choose_best_action (lines 27-78).  With an empty
safe set it re-scans all four directions and falls back to the current
direction; otherwise it scores every safe action with calculate_action_cost
(so in that branch the NameError of the cost function propagates). -/
def choose_best_action (board_size : ℤ) (current_head : Pos)
    (current_direction : Direction) (snake_body : List Pos)
    (food_position : Pos) : Except PyErr Direction :=
  match get_safe_actions board_size current_head snake_body with
  | [] =>
    match dirList.find?
        (fun a => ! is_collision (moveD current_head a) board_size snake_body) with
    | some a => .ok a
    | none => .ok current_direction
  | a :: rest => do
    let costs ← (a :: rest).mapM (fun act =>
      (calculate_action_cost current_head current_direction act snake_body
        food_position board_size).map (fun c => (act, c)))
    match selectBest costs with
    | some best => .ok best.1
    | none => .ok current_direction

/-- One admissible step of the grid search: a 4-neighbour that is in bounds and
not an obstacle (the source never bounds-checks the popped cell itself). -/
def Allowed (size : ℤ) (obst : List Pos) (p q : Pos) : Prop :=
  ∃ d ∈ dirList, q = moveD p d ∧ InB size q ∧ q ∉ obst

instance (size : ℤ) (obst : List Pos) (p q : Pos) : Decidable (Allowed size obst p q) :=
  inferInstanceAs (Decidable (∃ d ∈ dirList, q = moveD p d ∧ InB size q ∧ q ∉ obst))

/-- Reachability from `src` in exactly `n` admissible steps. -/
inductive ReachN (size : ℤ) (obst : List Pos) (src : Pos) : ℕ → Pos → Prop where
  | zero : ReachN size obst src 0 src
  | succ {n : ℕ} {u v : Pos} : ReachN size obst src n u → Allowed size obst u v →
      ReachN size obst src (n + 1) v

/-- Reachability from `src`. -/
def Reaches (size : ℤ) (obst : List Pos) (src p : Pos) : Prop :=
  ∃ n, ReachN size obst src n p

/-- A valid path of the search graph: nonempty, starts at `start`, ends at
`goal`, every consecutive pair an admissible step. -/
def IsPath (size : ℤ) (obst : List Pos) (start goal : Pos) (l : List Pos) : Prop :=
  l.head? = some start ∧ l.getLast? = some goal ∧ l.Chain' (Allowed size obst)

/-- Kernel-reducible decidability of chains, used by concrete witnesses. -/
def chainDecidable (R : Pos → Pos → Prop) [DecidableRel R] :
    ∀ l : List Pos, Decidable (l.Chain' R)
  | [] => .isTrue List.chain'_nil
  | [a] => .isTrue (List.chain'_singleton a)
  | a :: b :: l =>
    haveI := chainDecidable R (b :: l)
    decidable_of_iff (R a b ∧ (b :: l).Chain' R) List.chain'_cons.symm

instance (priority := 1100) (R : Pos → Pos → Prop) [DecidableRel R] (l : List Pos) :
    Decidable (l.Chain' R) := chainDecidable R l

instance (size : ℤ) (obst : List Pos) (s g : Pos) (l : List Pos) :
    Decidable (IsPath size obst s g l) :=
  inferInstanceAs
    (Decidable (l.head? = some s ∧ l.getLast? = some g ∧ l.Chain' (Allowed size obst)))

/-- One saturation round of the order-free flood fill used as the reference of
spec section 8: add every admissible neighbour of every cell of the set. -/
def ffStep (size : ℤ) (obst : List Pos) (s : Finset Pos) : Finset Pos :=
  s ∪ s.biUnion (fun p =>
    ((dirList.map (moveD p)).filter
      (fun q => decide (InB size q) && decide (q ∉ obst))).toFinset)

/-- Independent flood-fill reference of spec section 8, following the words of
the spec rather than the source: saturate from `start` to a fixpoint (the
number of rounds dominates the board area, so the fixpoint is reached). -/
def floodFillRef (size : ℤ) (obst : List Pos) (start : Pos) : Finset Pos :=
  (ffStep size obst)^[size.toNat ^ 2 + 1] {start}

/-- The finite set of in-bounds cells of a board. -/
def boundsFin (size : ℤ) : Finset Pos :=
  Finset.Icc 0 (size - 1) ×ˢ Finset.Icc 0 (size - 1)

/-- Length of a shortest admissible walk from `src` to `p` (0 when unreachable,
via the infimum convention); used only in proofs about the A-star search. -/
noncomputable def distN (size : ℤ) (obst : List Pos) (src p : Pos) : ℕ :=
  sInf {n | ReachN size obst src n p}

/-- A well-formed heap entry of the A-star loop: its recorded path, extended by
its node, is an admissible walk from `start`, its g cost counts that walk's
edges, and its f cost is g plus the heuristic. -/
def ValidEntry (size : ℤ) (obst : List Pos) (start goal : Pos) (e : Entry) : Prop :=
  (e.path ++ [e.pos]).Chain' (Allowed size obst) ∧
  (e.path ++ [e.pos]).head? = some start ∧
  e.g = e.path.length ∧
  e.f = e.g + heuristic e.pos goal

/-- Well-formedness of the g_costs association list: keys are distinct, every
key is the start cell or in bounds, and every value is at most the board area. -/
def GcOK (size : ℤ) (start : Pos) (gc : List (Pos × ℕ)) : Prop :=
  (gc.map Prod.fst).Nodup ∧
  ∀ q ∈ gc, q.1 ∈ insert start (boundsFin size) ∧ q.2 ≤ size.toNat * size.toNat

/-- Decreasing measure of the A-star loop: open entries, twice the stored g
values, and a large credit for every key the dict can still acquire. -/
def astarPhi (size : ℤ) (openL : List Entry) (gc : List (Pos × ℕ)) : ℕ :=
  openL.length + 2 * (gc.map Prod.snd).sum +
    (2 * (size.toNat * size.toNat) + 2) * (size.toNat * size.toNat + 1 - gc.length)

/-- Invariant of the A-star loop, relative to a ghost set `C` of cells already
expanded with optimal g.  `support` says every current dict value is either
owned by an expanded cell, strictly suboptimal, or backed by a live open entry
with that exact g. -/
structure AInv (size : ℤ) (obst : List Pos) (start goal : Pos)
    (openL : List Entry) (gc : List (Pos × ℕ)) (C : Set Pos) : Prop where
  entries : ∀ e ∈ openL, ValidEntry size obst start goal e
  realizable : ∀ p n, gcLookup gc p = some n → ReachN size obst start n p
  gcle : ∀ e ∈ openL, ∃ m, gcLookup gc e.pos = some m ∧ m ≤ e.g
  closedOpt : ∀ u ∈ C, gcLookup gc u = some (distN size obst start u) ∧
    (∀ v, Allowed size obst u v →
      ∃ m, gcLookup gc v = some m ∧ m ≤ distN size obst start u + 1)
  support : ∀ p n, gcLookup gc p = some n →
    p ∈ C ∨ distN size obst start p < n ∨ ∃ e ∈ openL, e.pos = p ∧ e.g = n
  gcok : GcOK size start gc
  eIdx : ∀ e ∈ openL, ∀ i q, (e.path ++ [e.pos]).get? i = some q →
    ∃ m, gcLookup gc q = some m ∧ m ≤ i
  eNodup : ∀ e ∈ openL, (e.path ++ [e.pos]).Nodup
  eBound : ∀ e ∈ openL, ∀ q ∈ e.path ++ [e.pos], q ∈ insert start (boundsFin size)

/-! ### General lemmas -/

theorem mem_boundsFin {size : ℤ} {p : Pos} : p ∈ boundsFin size ↔ InB size p := by
  unfold boundsFin InB
  rcases p with ⟨x, y⟩
  simp [Finset.mem_product, Finset.mem_Icc]
  omega

theorem card_boundsFin (size : ℤ) : (boundsFin size).card = size.toNat * size.toNat := by
  unfold boundsFin
  rw [Finset.card_product, Int.card_Icc]
  simp

/-- Cardinality bound for any set of visited cells: in-bounds cells plus the
start cell. -/
theorem card_le_of_subset_bounds {size : ℤ} {start : Pos} {s : Finset Pos}
    (h : s ⊆ insert start (boundsFin size)) :
    s.card ≤ size.toNat * size.toNat + 1 := by
  calc s.card ≤ (insert start (boundsFin size)).card := Finset.card_le_card h
    _ ≤ (boundsFin size).card + 1 := Finset.card_insert_le _ _
    _ = size.toNat * size.toNat + 1 := by rw [card_boundsFin]

/-- If the filter of a list is empty, find? with the same predicate is none. -/
theorem find?_eq_none_of_filter_nil {α : Type} {p : α → Bool} {l : List α}
    (h : l.filter p = []) : l.find? p = none := by
  rw [List.find?_eq_none]
  intro x hx
  simpa using List.filter_eq_nil_iff.mp h x hx

/-- Shared fallback lemma: with an empty safe-action set, choose_best_action
takes the fallback branch, finds no non-colliding direction either (the two
scans use the same predicate), and returns the current direction. -/
theorem choose_best_action_of_no_safe (board_size : ℤ) (current_head : Pos)
    (current_direction : Direction) (snake_body : List Pos) (food_position : Pos)
    (h : get_safe_actions board_size current_head snake_body = []) :
    choose_best_action board_size current_head current_direction snake_body
      food_position = .ok current_direction := by
  unfold choose_best_action
  rw [h]
  rw [find?_eq_none_of_filter_nil h]

/-! ### Claim theorems -/

/-- C7: is_collision is true exactly when the position is outside the square
with corners 0 and size (exclusive) or occurs in the body with its last
element (the tail) dropped; in particular every out-of-bounds cell collides
whatever the body and the board size are. -/
theorem is_collision_spec (pos : Pos) (size : ℤ) (snake_body : List Pos) :
    is_collision pos size snake_body = true ↔
      (¬ (0 ≤ pos.1 ∧ pos.1 < size ∧ 0 ≤ pos.2 ∧ pos.2 < size) ∨
        pos ∈ snake_body.dropLast) := by
  unfold is_collision InB
  split
  · simp_all
  · split <;> simp_all

/-- C1: calculate_action_cost yields the value float inf exactly when
is_collision holds of the next head; the collision branch short-circuits, and
no other code path of the function produces infinity. -/
theorem calculate_action_cost_inf_iff (current_head : Pos)
    (current_direction proposed_action : Direction) (snake_body : List Pos)
    (food_position : Pos) (board_size : ℤ) :
    calculate_action_cost current_head current_direction proposed_action
        snake_body food_position board_size = .ok .inf ↔
      is_collision (moveD current_head proposed_action) board_size snake_body
        = true := by
  unfold calculate_action_cost
  dsimp only
  split
  · simp_all
  · simp_all

/-- C3: whenever the collision check passes, calculate_action_cost reaches the
expression deque(snake_body) of line 92; cost_function.py imports only typing
and enum, so the name deque is unbound there and the call raises NameError --
the finite-cost return at the end of the function is unreachable. -/
theorem calculate_action_cost_nameError (current_head : Pos)
    (current_direction proposed_action : Direction) (snake_body : List Pos)
    (food_position : Pos) (board_size : ℤ)
    (h : is_collision (moveD current_head proposed_action) board_size snake_body
      = false) :
    calculate_action_cost current_head current_direction proposed_action
      snake_body food_position board_size = .error .nameErrorDeque := by
  unfold calculate_action_cost
  dsimp only
  rw [h]
  simp

/-- Witness for C3: a concrete non-colliding move reaches the NameError. -/
theorem calculate_action_cost_nameError_witness :
    is_collision (1, 0) 2 [(0, 0)] = false ∧
      calculate_action_cost (0, 0) .RIGHT .RIGHT [(0, 0)] (1, 0) 2
        = .error .nameErrorDeque :=
  ⟨by decide,
    calculate_action_cost_nameError (0, 0) .RIGHT .RIGHT [(0, 0)] (1, 0) 2
      (by decide)⟩

/-- C5: for every direction pair whose proposed move is not a collision, the
turn term added at line 71 (turn_cost times the weight 5) is 0 when the
candidate equals the current direction, 5 when the two are perpendicular, and
at least 1000000 when the candidate is the exact opposite. -/
theorem turn_term_table (current_head : Pos) (current_dir proposed : Direction)
    (snake_body : List Pos) (food_position : Pos) (board_size : ℤ)
    (h : is_collision (moveD current_head proposed) board_size snake_body
      = false) :
    (proposed = current_dir → turn_cost current_dir proposed * 5 = 0) ∧
    (proposed ≠ current_dir ∧ proposed ≠ oppositeDir current_dir →
      turn_cost current_dir proposed * 5 = 5) ∧
    (proposed = oppositeDir current_dir →
      1000000 ≤ turn_cost current_dir proposed * 5) := by
  clear h
  revert current_dir proposed
  decide

/-- Witness for C5: a concrete non-colliding straight move has turn term 0. -/
theorem turn_term_table_witness :
    is_collision (5, 4) 10 [(5, 5)] = false ∧ turn_cost .UP .UP * 5 = 0 :=
  ⟨by decide,
    (turn_term_table (5, 5) .UP .UP [(5, 5)] (0, 0) 10 (by decide)).1 rfl⟩

/-- C6: on the spec scenario (board 10, body [(1,1),(1,2)], direction LEFT,
food (0,1), candidate LEFT) the code does not return -99: the collision check
passes, the turn term is 0 and the A-star path has length 1 as the spec says,
but line 92 then raises NameError because cost_function.py never imports
deque, so no cost is returned at all. -/
theorem calculate_action_cost_scenario_raises :
    calculate_action_cost (1, 1) .LEFT .LEFT [(1, 1), (1, 2)] (0, 1) 10
        = .error .nameErrorDeque ∧
      turn_cost .LEFT .LEFT * 5 = 0 ∧
      a_star_search (0, 1) (0, 1) 10 [(1, 1), (1, 2)] = some [(0, 1)] :=
  ⟨by decide, by decide, by decide⟩

/-- C8: when no direction passes the collision filter, choose_best_action
returns the current direction unchanged (and, being total, raises nothing). -/
theorem choose_best_action_trapped (board_size : ℤ) (current_head : Pos)
    (current_direction : Direction) (snake_body : List Pos) (food_position : Pos)
    (h : get_safe_actions board_size current_head snake_body = []) :
    choose_best_action board_size current_head current_direction snake_body
      food_position = .ok current_direction :=
  choose_best_action_of_no_safe board_size current_head current_direction
    snake_body food_position h

/-- Witness for C8: a board of size 1 with the body on its only cell leaves no
safe action and the policy returns the current direction. -/
theorem choose_best_action_trapped_witness :
    get_safe_actions 1 (0, 0) [(0, 0)] = [] ∧
      choose_best_action 1 (0, 0) .UP [(0, 0)] (0, 0) = .ok .UP :=
  ⟨by decide, choose_best_action_trapped 1 (0, 0) .UP [(0, 0)] (0, 0) (by decide)⟩

/-- C9: when start and target coincide, has_path_to_target_bfs dequeues start
first, the dequeue check fires at once and the function returns true, for every
board size and body. -/
theorem has_path_self (start_pos target_pos : Pos) (size : ℤ)
    (snake_body : List Pos) (h : start_pos = target_pos) :
    has_path_to_target_bfs start_pos target_pos size snake_body = true := by
  subst h
  show (hpLoop _ _ _ (size.toNat ^ 2 + 2 + 1) _ _).getD false = true
  rw [hpLoop]
  simp

/-- Witness for C9: a concrete query with start equal to target (and start
even sitting on the body) returns true. -/
theorem has_path_self_witness :
    has_path_to_target_bfs (3, 3) (3, 3) 5 [(3, 3), (1, 2)] = true :=
  has_path_self (3, 3) (3, 3) 5 [(3, 3), (1, 2)] rfl

/-- Counterexample for C10: on invalid snapshots (empty body, non-positive
board size, out-of-bounds goal) every core operation proceeds and returns an
ordinary value; none of them fails with an InvalidInput condition. -/
theorem invalid_input_not_rejected :
    is_collision (0, 0) 0 [] = true ∧
      a_star_search (0, 0) (1, 1) 0 [] = none ∧
      find_reachable_areas_bfs (0, 0) 0 [] (1, 1) = (1, [(0, 0)]) ∧
      has_path_to_target_bfs (0, 0) (0, 0) 0 [] = true ∧
      choose_best_action 0 (0, 0) .UP [] (5, 5) = .ok .UP := by
  refine ⟨by decide, by decide, by decide, by decide, by decide⟩

/-- C10 amended: the core performs no input validation.  On a non-positive
board size every cell is a wall collision, so the safe set is empty and the
policy proceeds through its fallback and returns the current direction; no
operation signals an InvalidInput condition. -/
theorem invalid_input_proceeds (size : ℤ) (h : size ≤ 0) (pos current_head : Pos)
    (current_direction : Direction) (snake_body : List Pos) (food_position : Pos) :
    is_collision pos size snake_body = true ∧
      choose_best_action size current_head current_direction snake_body
        food_position = .ok current_direction := by
  have hcol : ∀ q : Pos, is_collision q size snake_body = true := by
    intro q
    unfold is_collision InB
    have : ¬ (0 ≤ q.1 ∧ q.1 < size ∧ 0 ≤ q.2 ∧ q.2 < size) := by
      rintro ⟨h1, h2, -, -⟩; omega
    simp [this]
  refine ⟨hcol pos, ?_⟩
  apply choose_best_action_of_no_safe
  unfold get_safe_actions
  rw [List.filter_eq_nil_iff]
  intro a _
  simp [hcol]

/-- Witness for C10 amended: board size 0. -/
theorem invalid_input_proceeds_witness :
    is_collision (2, 3) 0 [(2, 3)] = true ∧
      choose_best_action 0 (1, 1) .DOWN [(2, 3)] (0, 0) = .ok .DOWN :=
  invalid_input_proceeds 0 (by decide) (2, 3) (1, 1) .DOWN [(2, 3)] (0, 0)

/-! ### Flood-fill reference facts (for C4) -/

theorem mem_ffStep {size : ℤ} {obst : List Pos} {s : Finset Pos} {p : Pos} :
    p ∈ ffStep size obst s ↔ p ∈ s ∨ ∃ c ∈ s, Allowed size obst c p := by
  unfold ffStep
  rw [Finset.mem_union, Finset.mem_biUnion]
  apply or_congr Iff.rfl
  constructor
  · rintro ⟨c, hc, hp⟩
    rw [List.mem_toFinset, List.mem_filter] at hp
    obtain ⟨hmem, hpred⟩ := hp
    rw [List.mem_map] at hmem
    obtain ⟨d, hd, hmove⟩ := hmem
    simp only [Bool.and_eq_true, decide_eq_true_eq] at hpred
    exact ⟨c, hc, d, hd, hmove.symm, hpred.1, hpred.2⟩
  · rintro ⟨c, hc, d, hd, hmove, hb, ho⟩
    refine ⟨c, hc, ?_⟩
    rw [List.mem_toFinset, List.mem_filter]
    constructor
    · rw [List.mem_map]; exact ⟨d, hd, hmove.symm⟩
    · simp only [Bool.and_eq_true, decide_eq_true_eq]
      exact ⟨hb, ho⟩

theorem ffStep_subset (size : ℤ) (obst : List Pos) (s : Finset Pos) :
    s ⊆ ffStep size obst s :=
  Finset.subset_union_left

theorem ffIter_subset_bounds (size : ℤ) (obst : List Pos) (start : Pos) (n : ℕ) :
    (ffStep size obst)^[n] {start} ⊆ insert start (boundsFin size) := by
  induction n with
  | zero => simp
  | succ n ih =>
    rw [Function.iterate_succ_apply']
    intro p hp
    rcases mem_ffStep.mp hp with hp | ⟨c, _, _, _, _, hb, _⟩
    · exact ih hp
    · exact Finset.mem_insert_of_mem (mem_boundsFin.mpr hb)

theorem ffIter_reaches (size : ℤ) (obst : List Pos) (start : Pos) (n : ℕ) :
    ∀ p ∈ (ffStep size obst)^[n] {start}, Reaches size obst start p := by
  induction n with
  | zero =>
    intro p hp
    rw [Function.iterate_zero_apply, Finset.mem_singleton] at hp
    exact hp ▸ ⟨0, .zero⟩
  | succ n ih =>
    intro p hp
    rw [Function.iterate_succ_apply'] at hp
    rcases mem_ffStep.mp hp with hp | ⟨c, hc, hall⟩
    · exact ih p hp
    · obtain ⟨m, hm⟩ := ih c hc
      exact ⟨m + 1, hm.succ hall⟩

/-- If the saturation ever repeats, it has reached its set of fixpoints. -/
theorem ffIter_stable (size : ℤ) (obst : List Pos) (start : Pos) {i : ℕ}
    (h : (ffStep size obst)^[i + 1] {start} = (ffStep size obst)^[i] {start})
    (j : ℕ) (hij : i ≤ j) :
    (ffStep size obst)^[j] {start} = (ffStep size obst)^[i] {start} := by
  obtain ⟨m, rfl⟩ := Nat.exists_eq_add_of_le hij
  induction m with
  | zero => rfl
  | succ m ih =>
    have hstep : (ffStep size obst)^[i + (m + 1)] {start}
        = ffStep size obst ((ffStep size obst)^[i + m] {start}) := by
      rw [show i + (m + 1) = (i + m) + 1 by omega, Function.iterate_succ_apply']
    rw [hstep, ih (by omega)]
    have hiter := Function.iterate_succ_apply' (ffStep size obst) i ({start} : Finset Pos)
    rw [← hiter, h]

/-- The saturation chain is strictly increasing until it stabilises, so on a
board with at most size * size + 1 relevant cells it stabilises within
size * size + 1 rounds. -/
theorem ffIter_exists_fix (size : ℤ) (obst : List Pos) (start : Pos) :
    ∃ i ≤ size.toNat * size.toNat + 1,
      (ffStep size obst)^[i + 1] {start} = (ffStep size obst)^[i] {start} := by
  by_contra hcon
  push_neg at hcon
  have hgrow : ∀ i ≤ size.toNat * size.toNat + 1,
      i + 1 ≤ ((ffStep size obst)^[i] {start}).card := by
    intro i
    induction i with
    | zero => intro _; simp
    | succ i ih =>
      intro hle
      have hi : i ≤ size.toNat * size.toNat + 1 := by omega
      have hne := hcon i hi
      have hiter := Function.iterate_succ_apply' (ffStep size obst) i ({start} : Finset Pos)
      have hss : (ffStep size obst)^[i] {start} ⊂ (ffStep size obst)^[i + 1] {start} := by
        rw [hiter]
        refine Finset.ssubset_iff_subset_ne.mpr ⟨ffStep_subset _ _ _, ?_⟩
        intro hEq
        exact hne (by rw [hiter]; exact hEq.symm)
      have hlt := Finset.card_lt_card hss
      have hih := ih hi
      omega
  have h1 := hgrow (size.toNat * size.toNat + 1) le_rfl
  have h2 := card_le_of_subset_bounds (ffIter_subset_bounds size obst start
    (size.toNat * size.toNat + 1))
  omega

/-- floodFillRef is a fixpoint of the saturation step. -/
theorem floodFillRef_fix (size : ℤ) (obst : List Pos) (start : Pos) :
    ffStep size obst (floodFillRef size obst start) = floodFillRef size obst start := by
  obtain ⟨i, hi, hfix⟩ := ffIter_exists_fix size obst start
  unfold floodFillRef
  have hsq : size.toNat ^ 2 = size.toNat * size.toNat := sq size.toNat
  have h1 : (ffStep size obst)^[size.toNat ^ 2 + 1] {start}
      = (ffStep size obst)^[i] {start} := by
    apply ffIter_stable size obst start hfix
    omega
  rw [h1]
  have hiter := Function.iterate_succ_apply' (ffStep size obst) i ({start} : Finset Pos)
  rw [← hiter]
  exact hfix

theorem floodFillRef_start (size : ℤ) (obst : List Pos) (start : Pos) :
    start ∈ floodFillRef size obst start := by
  unfold floodFillRef
  induction size.toNat ^ 2 + 1 with
  | zero => simp
  | succ n ih =>
    rw [Function.iterate_succ_apply']
    exact ffStep_subset _ _ _ ih

/-- Membership in the flood-fill reference is exactly reachability. -/
theorem mem_floodFillRef {size : ℤ} {obst : List Pos} {start p : Pos} :
    p ∈ floodFillRef size obst start ↔ Reaches size obst start p := by
  constructor
  · exact fun h => ffIter_reaches size obst start _ p h
  · rintro ⟨n, hn⟩
    induction hn with
    | zero => exact floodFillRef_start size obst start
    | succ hr hall ih =>
      rw [← floodFillRef_fix size obst start, mem_ffStep]
      exact Or.inr ⟨_, ih, hall⟩

/-! ### BFS loop facts (for C4) -/

/-- Effect of the inner neighbour loop of find_reachable_areas_bfs: it appends
a duplicate-free block of fresh admissible neighbours of the popped cell to the
queue and marks exactly those visited; afterwards every admissible neighbour of
the popped cell is visited. -/
theorem bfsFold_spec (size : ℤ) (obst : List Pos) (c : Pos) :
    ∀ (ds : List Direction) (q0 : List Pos) (vis0 : Finset Pos),
      ∃ new : List Pos,
        (ds.foldl (bfsRelax size obst c) (q0, vis0)).1 = q0 ++ new ∧
        (ds.foldl (bfsRelax size obst c) (q0, vis0)).2 = vis0 ∪ new.toFinset ∧
        new.Nodup ∧
        (∀ p ∈ new, p ∉ vis0) ∧
        (∀ p ∈ new, InB size p ∧ p ∉ obst ∧ ∃ d ∈ ds, p = moveD c d) ∧
        (∀ d ∈ ds, InB size (moveD c d) → moveD c d ∉ obst →
          moveD c d ∈ (ds.foldl (bfsRelax size obst c) (q0, vis0)).2) := by
  intro ds
  induction ds with
  | nil =>
    intro q0 vis0
    exact ⟨[], by simp, by simp, List.nodup_nil, by simp, by simp, by simp⟩
  | cons d ds ih =>
    intro q0 vis0
    rw [List.foldl_cons]
    by_cases hcond : InB size (moveD c d) ∧ moveD c d ∉ vis0 ∧ moveD c d ∉ obst
    · have hstep : bfsRelax size obst c (q0, vis0) d
          = (q0 ++ [moveD c d], insert (moveD c d) vis0) := by
        unfold bfsRelax
        rw [if_pos hcond]
      rw [hstep]
      obtain ⟨new, h1, h2, h3, h4, h5, h6⟩ := ih (q0 ++ [moveD c d]) (insert (moveD c d) vis0)
      refine ⟨moveD c d :: new, ?_, ?_, ?_, ?_, ?_, ?_⟩
      · rw [h1, List.append_assoc]; rfl
      · rw [h2]
        ext p
        simp only [Finset.mem_union, Finset.mem_insert, List.toFinset_cons,
          List.mem_toFinset]
        tauto
      · refine List.Nodup.cons ?_ h3
        intro hmem
        exact h4 _ hmem (Finset.mem_insert_self _ _)
      · intro p hp
        rcases List.mem_cons.mp hp with rfl | hp
        · exact hcond.2.1
        · exact fun hv => h4 p hp (Finset.mem_insert_of_mem hv)
      · intro p hp
        rcases List.mem_cons.mp hp with rfl | hp
        · exact ⟨hcond.1, hcond.2.2, d, List.mem_cons_self d ds, rfl⟩
        · obtain ⟨hb, ho, d', hd', hm⟩ := h5 p hp
          exact ⟨hb, ho, d', List.mem_cons_of_mem d hd', hm⟩
      · intro d' hd' hb ho
        rcases List.mem_cons.mp hd' with rfl | hd'
        · rw [h2]
          exact Finset.mem_union_left _ (Finset.mem_insert_self _ _)
        · exact h6 d' hd' hb ho
    · have hstep : bfsRelax size obst c (q0, vis0) d = (q0, vis0) := by
        unfold bfsRelax
        rw [if_neg hcond]
      rw [hstep]
      obtain ⟨new, h1, h2, h3, h4, h5, h6⟩ := ih q0 vis0
      refine ⟨new, h1, h2, h3, h4, ?_, ?_⟩
      · intro p hp
        obtain ⟨hb, ho, d', hd', hm⟩ := h5 p hp
        exact ⟨hb, ho, d', List.mem_cons_of_mem d hd', hm⟩
      · intro d' hd' hb ho
        rcases List.mem_cons.mp hd' with rfl | hd'
        · have hvis : moveD c d' ∈ vis0 := by
            by_contra hnv
            exact hcond ⟨hb, hnv, ho⟩
          rw [h2]
          exact Finset.mem_union_left _ hvis
        · exact h6 d' hd' hb ho

/-- Main invariant induction for the find_reachable_areas_bfs loop: with
enough fuel the loop terminates and returns a duplicate-free enumeration of
exactly the reachable cells, together with its length as the count. -/
theorem reachLoop_correct (size : ℤ) (obst : List Pos) (start : Pos) :
    ∀ (fuel : ℕ) (q cells : List Pos) (visited : Finset Pos),
      ((cells ++ q).Nodup) →
      (∀ p, p ∈ cells ++ q ↔ p ∈ visited) →
      (∀ p ∈ visited, Reaches size obst start p) →
      (∀ c ∈ cells, ∀ v, Allowed size obst c v → v ∈ visited) →
      start ∈ visited →
      visited ⊆ insert start (boundsFin size) →
      size.toNat * size.toNat + 2 - visited.card + q.length < fuel →
      ∃ cells' : List Pos,
        reachLoop size obst fuel q visited cells.length cells
          = some (cells'.length, cells') ∧
        cells'.Nodup ∧
        ∀ p, p ∈ cells' ↔ Reaches size obst start p := by
  intro fuel
  induction fuel with
  | zero =>
    intro q cells visited _ _ _ _ _ _ hmeas
    omega
  | succ fuel ih =>
    intro q cells visited hnodup henum hreach hclosed hstart hbound hmeas
    match q with
    | [] =>
      refine ⟨cells, rfl, by simpa using hnodup, ?_⟩
      intro p
      constructor
      · intro hp
        exact hreach p (by rw [← henum p]; simpa using hp)
      · rintro ⟨n, hn⟩
        have hvis : ∀ (m : ℕ) (x : Pos), ReachN size obst start m x → x ∈ visited := by
          intro m x hx
          induction hx with
          | zero => exact hstart
          | succ hu hall ihx =>
            exact hclosed _ (by simpa using (henum _).mpr ihx) _ hall
        have hmem := hvis n p hn
        rw [← henum p] at hmem
        simpa using hmem
    | c :: qrest =>
      obtain ⟨new, h1, h2, h3, h4, h5, h6⟩ :=
        bfsFold_spec size obst c dirList qrest visited
      have hstep : reachLoop size obst (fuel + 1) (c :: qrest) visited
          cells.length cells
          = reachLoop size obst fuel
              (dirList.foldl (bfsRelax size obst c) (qrest, visited)).1
              (dirList.foldl (bfsRelax size obst c) (qrest, visited)).2
              (cells.length + 1) (cells ++ [c]) := rfl
      have hc_vis : c ∈ visited := (henum c).mp (by simp)
      -- fresh block is disjoint from everything enumerated so far
      have hfresh : ∀ p ∈ new, p ∉ cells ++ c :: qrest := by
        intro p hp hmem
        exact h4 p hp ((henum p).mp hmem)
      have hnodup' : ((cells ++ [c]) ++ (qrest ++ new)).Nodup := by
        have hshape : (cells ++ [c]) ++ (qrest ++ new) = (cells ++ c :: qrest) ++ new := by
          simp
        rw [hshape]
        exact List.Nodup.append hnodup h3 (fun a ha hb => hfresh a hb ha)
      have henum' : ∀ p, p ∈ (cells ++ [c]) ++ (qrest ++ new)
          ↔ p ∈ visited ∪ new.toFinset := by
        intro p
        have hshape : (cells ++ [c]) ++ (qrest ++ new) = (cells ++ c :: qrest) ++ new := by
          simp
        rw [hshape]
        simp only [List.mem_append, Finset.mem_union, List.mem_toFinset]
        have hh := henum p
        simp only [List.mem_append] at hh
        tauto
      have hreach' : ∀ p ∈ visited ∪ new.toFinset, Reaches size obst start p := by
        intro p hp
        rcases Finset.mem_union.mp hp with hp | hp
        · exact hreach p hp
        · rw [List.mem_toFinset] at hp
          obtain ⟨hb, ho, d, hd, hm⟩ := h5 p hp
          obtain ⟨n, hn⟩ := hreach c hc_vis
          exact ⟨n + 1, hn.succ ⟨d, hd, hm, hb, ho⟩⟩
      have hclosed' : ∀ x ∈ cells ++ [c], ∀ v, Allowed size obst x v →
          v ∈ visited ∪ new.toFinset := by
        intro x hx v hall
        rcases List.mem_append.mp hx with hx | hx
        · exact Finset.mem_union_left _ (hclosed x hx v hall)
        · have hxc : x = c := by simpa using hx
          subst hxc
          obtain ⟨d, hd, hm, hb, ho⟩ := hall
          have := h6 d hd (hm ▸ hb) (hm ▸ ho)
          rw [h2] at this
          exact hm ▸ this
      have hstart' : start ∈ visited ∪ new.toFinset := Finset.mem_union_left _ hstart
      have hbound' : visited ∪ new.toFinset ⊆ insert start (boundsFin size) := by
        intro p hp
        rcases Finset.mem_union.mp hp with hp | hp
        · exact hbound hp
        · rw [List.mem_toFinset] at hp
          exact Finset.mem_insert_of_mem (mem_boundsFin.mpr (h5 p hp).1)
      have hdisj : Disjoint visited new.toFinset := by
        rw [Finset.disjoint_right]
        intro p hp
        rw [List.mem_toFinset] at hp
        exact h4 p hp
      have hcard : (visited ∪ new.toFinset).card = visited.card + new.length := by
        rw [Finset.card_union_of_disjoint hdisj, List.toFinset_card_of_nodup h3]
      have hcardle : (visited ∪ new.toFinset).card ≤ size.toNat * size.toNat + 1 :=
        card_le_of_subset_bounds hbound'
      have hmeas' : size.toNat * size.toNat + 2 - (visited ∪ new.toFinset).card
          + (qrest ++ new).length < fuel := by
        rw [hcard, List.length_append]
        simp only [List.length_cons] at hmeas
        omega
      obtain ⟨cells', hrun, hnd, hiff⟩ := ih (qrest ++ new) (cells ++ [c])
        (visited ∪ new.toFinset) hnodup' henum'
        hreach' hclosed' hstart' hbound' hmeas'
      refine ⟨cells', ?_, hnd, hiff⟩
      rw [hstep, h1, h2]
      have hlen : (cells ++ [c]).length = cells.length + 1 := by simp
      rw [← hlen]
      exact hrun

/-- C4: the count returned by find_reachable_areas_bfs equals the cardinality
of the independent, traversal-order-free flood-fill reference (obstacles being
the body cells with the food cell removed, start always counted), and the
returned cell list is a duplicate-free enumeration of exactly that set. -/
theorem find_reachable_areas_bfs_matches_ref (start_pos : Pos) (size : ℤ)
    (snake_body : List Pos) (food_pos : Pos) :
    (find_reachable_areas_bfs start_pos size snake_body food_pos).1
        = (floodFillRef size (reachObstacles snake_body food_pos) start_pos).card ∧
      (find_reachable_areas_bfs start_pos size snake_body food_pos).2.toFinset
        = floodFillRef size (reachObstacles snake_body food_pos) start_pos ∧
      (find_reachable_areas_bfs start_pos size snake_body food_pos).2.Nodup := by
  set obst := reachObstacles snake_body food_pos with hobst
  obtain ⟨cells', hrun, hnd, hiff⟩ := reachLoop_correct size obst start_pos
    (size.toNat ^ 2 + 3) [start_pos] [] {start_pos}
    (by simp)
    (by intro p; simp)
    (by intro p hp; rw [Finset.mem_singleton] at hp; exact ⟨0, hp ▸ .zero⟩)
    (by intro c hc; simp at hc)
    (Finset.mem_singleton_self start_pos)
    (by intro p hp; rw [Finset.mem_singleton] at hp; simp [hp])
    (by
      rw [Finset.card_singleton]
      have hsq : size.toNat ^ 2 = size.toNat * size.toNat := sq size.toNat
      simp only [List.length_cons, List.length_nil]
      omega)
  have hrun' : reachLoop size obst (size.toNat ^ 2 + 3) [start_pos] {start_pos} 0 []
      = some (cells'.length, cells') := by simpa using hrun
  have hres : find_reachable_areas_bfs start_pos size snake_body food_pos
      = (cells'.length, cells') := by
    unfold find_reachable_areas_bfs
    rw [← hobst, hrun']
    rfl
  have hset : cells'.toFinset = floodFillRef size obst start_pos := by
    ext p
    rw [List.mem_toFinset, hiff p, mem_floodFillRef]
  rw [hres]
  exact ⟨by rw [← List.toFinset_card_of_nodup hnd, hset], hset, hnd⟩

/-! ### Shortest-distance facts (for C2) -/

theorem reachN_zero_iff {size : ℤ} {obst : List Pos} {src p : Pos} :
    ReachN size obst src 0 p ↔ p = src := by
  constructor
  · intro h
    cases h
    rfl
  · rintro rfl
    exact .zero

theorem distN_le {size : ℤ} {obst : List Pos} {src p : Pos} {n : ℕ}
    (h : ReachN size obst src n p) : distN size obst src p ≤ n :=
  Nat.sInf_le h

theorem distN_reachN {size : ℤ} {obst : List Pos} {src p : Pos}
    (h : Reaches size obst src p) :
    ReachN size obst src (distN size obst src p) p :=
  Nat.sInf_mem h

theorem distN_self (size : ℤ) (obst : List Pos) (src : Pos) :
    distN size obst src src = 0 :=
  Nat.le_zero.mp (distN_le .zero)

theorem reachN_trans {size : ℤ} {obst : List Pos} {src v z : Pos} {a b : ℕ}
    (h1 : ReachN size obst src a v) (h2 : ReachN size obst v b z) :
    ReachN size obst src (a + b) z := by
  induction h2 with
  | zero => exact h1
  | succ hr hall ih => exact ih.succ hall

theorem reachN_first_step {size : ℤ} {obst : List Pos} {s : Pos} :
    ∀ {m : ℕ} {z : Pos}, ReachN size obst s (m + 1) z →
      ∃ v, Allowed size obst s v ∧ ReachN size obst v m z := by
  intro m
  induction m with
  | zero =>
    intro z h
    cases h with
    | succ h0 hall =>
      rw [reachN_zero_iff.mp h0] at hall
      exact ⟨z, hall, .zero⟩
  | succ m ih =>
    intro z h
    cases h with
    | succ h0 hall =>
      obtain ⟨v, hv, hw⟩ := ih h0
      exact ⟨v, hv, hw.succ hall⟩

/-! ### Heuristic consistency (for C2) -/

theorem heuristic_self (p : Pos) : heuristic p p = 0 := by
  unfold heuristic
  simp

theorem heuristic_step (p goal : Pos) (d : Direction) :
    heuristic p goal ≤ heuristic (moveD p d) goal + 1 := by
  unfold heuristic moveD
  cases d <;> simp [Direction.value] <;> omega

theorem heuristic_consistent {size : ℤ} {obst : List Pos} {u v : Pos} {m : ℕ}
    (goal : Pos) (h : ReachN size obst u m v) :
    heuristic u goal ≤ m + heuristic v goal := by
  induction h with
  | zero => omega
  | @succ n w x hr hall ih =>
    obtain ⟨d, -, rfl, -, -⟩ := hall
    have hs := heuristic_step w goal d
    omega

/-! ### Walks as cell lists (for C2) -/

theorem head?_concat_of_head? {l : List Pos} {x s : Pos}
    (h : (l ++ [x]).head? = some s) : l = [] ∧ x = s ∨ l.head? = some s := by
  cases l with
  | nil => simp at h; exact Or.inl ⟨rfl, h⟩
  | cons a l => simp at h; exact Or.inr (by simp [h])

theorem chain_reachN (size : ℤ) (obst : List Pos) (src : Pos) :
    ∀ (l : List Pos) (x : Pos), (l ++ [x]).Chain' (Allowed size obst) →
      (l ++ [x]).head? = some src → ReachN size obst src l.length x := by
  intro l
  induction l using List.reverseRecOn with
  | nil =>
    intro x _ hh
    simp at hh
    exact reachN_zero_iff.mpr hh
  | append_singleton l y ih =>
    intro x hchain hh
    rw [List.chain'_append] at hchain
    obtain ⟨hc1, -, hc3⟩ := hchain
    have hyx : Allowed size obst y x := by
      apply hc3 y _ x
      · simp
      · simp
    have hh' : (l ++ [y]).head? = some src := by
      cases l with
      | nil => simpa using hh
      | cons a t => simpa using hh
    have hr := (ih y hc1 hh').succ hyx
    simpa using hr

theorem reachN_exists_walk {size : ℤ} {obst : List Pos} {src p : Pos} {n : ℕ}
    (h : ReachN size obst src n p) :
    ∃ l : List Pos, l.head? = some src ∧ l.getLast? = some p ∧
      l.Chain' (Allowed size obst) ∧ l.length = n + 1 := by
  induction h with
  | zero => exact ⟨[src], rfl, rfl, List.chain'_singleton src, rfl⟩
  | @succ n w v hr hall ih =>
    obtain ⟨l, hh, hl, hc, hlen⟩ := ih
    have hne : l ≠ [] := by
      intro hnil
      rw [hnil] at hh
      simp at hh
    refine ⟨l ++ [v], ?_, ?_, ?_, ?_⟩
    · cases l with
      | nil => exact absurd rfl hne
      | cons a t => simpa using hh
    · simp
    · rw [List.chain'_append]
      refine ⟨hc, List.chain'_singleton _, ?_⟩
      intro a ha b hb
      rw [hl] at ha
      simp at ha hb
      rw [← ha, ← hb]
      exact hall
    · simp [hlen]

theorem isPath_reachN {size : ℤ} {obst : List Pos} {start goal : Pos}
    {l : List Pos} (h : IsPath size obst start goal l) :
    ReachN size obst start (l.length - 1) goal := by
  obtain ⟨hh, hl, hc⟩ := h
  have hne : l ≠ [] := by
    intro hnil
    rw [hnil] at hh
    simp at hh
  have hsplit : l.dropLast ++ [l.getLast hne] = l := List.dropLast_append_getLast hne
  have hgoal : l.getLast hne = goal := by
    have := List.getLast?_eq_getLast l hne
    rw [this] at hl
    exact Option.some_injective _ hl
  have hlen : l.dropLast.length = l.length - 1 := by
    rw [List.length_dropLast]
  rw [← hlen, ← hgoal]
  exact chain_reachN size obst start l.dropLast (l.getLast hne)
    (by rw [hsplit]; exact hc) (by rw [hsplit]; exact hh)

theorem isPath_reaches {size : ℤ} {obst : List Pos} {start goal : Pos}
    {l : List Pos} (h : IsPath size obst start goal l) :
    Reaches size obst start goal :=
  ⟨_, isPath_reachN h⟩

theorem reachN_isPath {size : ℤ} {obst : List Pos} {start goal : Pos} {n : ℕ}
    (h : ReachN size obst start n goal) :
    ∃ l, IsPath size obst start goal l ∧ l.length = n + 1 := by
  obtain ⟨l, hh, hl, hc, hlen⟩ := reachN_exists_walk h
  exact ⟨l, ⟨hh, hl, hc⟩, hlen⟩

/-! ### Heap-pop facts (for C2) -/

theorem popMin_eq_none {l : List Entry} : popMin l = none ↔ l = [] := by
  unfold popMin
  cases h : l.argmin entryKey with
  | none => simpa using List.argmin_eq_none.mp h
  | some e =>
    simp only []
    constructor
    · intro hc; cases hc
    · intro hc
      rw [hc] at h
      simp [List.argmin_nil] at h

theorem popMin_spec {l : List Entry} {e : Entry} {rest : List Entry}
    (h : popMin l = some (e, rest)) :
    e ∈ l ∧ l.Perm (e :: rest) ∧ ∀ x ∈ l, entryKey e ≤ entryKey x := by
  unfold popMin at h
  cases harg : l.argmin entryKey with
  | none => rw [harg] at h; cases h
  | some m =>
    rw [harg] at h
    simp only [Option.some_inj] at h
    rw [Prod.mk.injEq] at h
    obtain ⟨rfl, rfl⟩ := h
    have hargm : m ∈ l.argmin entryKey := Option.mem_def.mpr harg
    have hmem : m ∈ l := List.argmin_mem hargm
    refine ⟨hmem, List.perm_cons_erase hmem, ?_⟩
    intro x hx
    exact List.le_of_mem_argmin hx hargm

theorem entryKey_le_f {a b : Entry} (h : entryKey a ≤ entryKey b) : a.f ≤ b.f := by
  unfold entryKey at h
  rw [Prod.Lex.le_iff] at h
  rcases h with h | ⟨h, -⟩
  · exact le_of_lt h
  · exact le_of_eq h

/-! ### Association-list facts for g_costs (for C2) -/

theorem gcLookup_nil (p : Pos) : gcLookup [] p = none := rfl

theorem gcLookup_cons (q : Pos × ℕ) (gc : List (Pos × ℕ)) (p : Pos) :
    gcLookup (q :: gc) p = if q.1 = p then some q.2 else gcLookup gc p := by
  by_cases h : q.1 = p <;> simp [gcLookup, List.find?, h]

theorem gcLookup_eq_none_iff {gc : List (Pos × ℕ)} {p : Pos} :
    gcLookup gc p = none ↔ p ∉ gc.map Prod.fst := by
  induction gc with
  | nil => simp [gcLookup_nil]
  | cons q rest ih =>
    rw [gcLookup_cons]
    by_cases h : q.1 = p
    · simp only [if_pos h, List.map_cons, List.mem_cons]
      constructor
      · intro hc; cases hc
      · intro hc; exact absurd (Or.inl h.symm) hc
    · simp only [if_neg h, List.map_cons, List.mem_cons]
      rw [ih]
      constructor
      · intro hn hc
        rcases hc with hc | hc
        · exact h hc.symm
        · exact hn hc
      · intro hn hc
        exact hn (Or.inr hc)

theorem gcLookup_mem {gc : List (Pos × ℕ)} {p : Pos} {n : ℕ}
    (h : gcLookup gc p = some n) : (p, n) ∈ gc := by
  induction gc with
  | nil => simp [gcLookup_nil] at h
  | cons q rest ih =>
    rw [gcLookup_cons] at h
    by_cases hq : q.1 = p
    · rw [if_pos hq] at h
      obtain rfl := Option.some_inj.mp h
      rw [List.mem_cons]
      left
      rw [← hq]
    · rw [if_neg hq] at h
      exact List.mem_cons_of_mem _ (ih h)

theorem gcInsert_of_none {gc : List (Pos × ℕ)} {p : Pos} (n : ℕ)
    (h : gcLookup gc p = none) : gcInsert gc p n = gc ++ [(p, n)] := by
  induction gc with
  | nil => rfl
  | cons q rest ih =>
    rw [gcLookup_cons] at h
    by_cases hq : q.1 = p
    · rw [if_pos hq] at h; cases h
    · rw [if_neg hq] at h
      unfold gcInsert
      rw [if_neg hq, ih h]
      rfl

theorem gcInsert_split {gc : List (Pos × ℕ)} {p : Pos} {old : ℕ} (n : ℕ)
    (h : gcLookup gc p = some old) :
    ∃ l1 l2, gc = l1 ++ (p, old) :: l2 ∧ gcInsert gc p n = l1 ++ (p, n) :: l2 ∧
      p ∉ l1.map Prod.fst := by
  induction gc with
  | nil => simp [gcLookup_nil] at h
  | cons q rest ih =>
    rw [gcLookup_cons] at h
    by_cases hq : q.1 = p
    · rw [if_pos hq] at h
      obtain rfl := Option.some_inj.mp h
      refine ⟨[], rest, ?_, ?_, by simp⟩
      · simp [← hq]
      · unfold gcInsert
        rw [if_pos hq]
        simp
    · rw [if_neg hq] at h
      obtain ⟨l1, l2, h1, h2, h3⟩ := ih h
      refine ⟨q :: l1, l2, by rw [h1]; rfl, ?_, ?_⟩
      · unfold gcInsert
        rw [if_neg hq, h2]
        rfl
      · simp only [List.map_cons, List.mem_cons]
        rintro (hc | hc)
        · exact hq hc.symm
        · exact h3 hc

theorem gcLookup_gcInsert_self (gc : List (Pos × ℕ)) (p : Pos) (n : ℕ) :
    gcLookup (gcInsert gc p n) p = some n := by
  induction gc with
  | nil => simp [gcInsert, gcLookup_cons]
  | cons q rest ih =>
    unfold gcInsert
    by_cases hq : q.1 = p
    · rw [if_pos hq, gcLookup_cons]
      simp
    · rw [if_neg hq, gcLookup_cons, if_neg hq]
      exact ih

theorem gcLookup_gcInsert_ne (gc : List (Pos × ℕ)) (p : Pos) (n : ℕ) {q : Pos}
    (h : q ≠ p) : gcLookup (gcInsert gc p n) q = gcLookup gc q := by
  induction gc with
  | nil =>
    simp only [gcInsert, gcLookup_cons, gcLookup_nil]
    rw [if_neg (fun hc => h hc.symm)]
  | cons x rest ih =>
    unfold gcInsert
    by_cases hx : x.1 = p
    · rw [if_pos hx, gcLookup_cons, gcLookup_cons]
      have : ¬ ((p, n).1 = q) := fun hc => h hc.symm
      rw [if_neg this, if_neg (by rw [hx]; exact this)]
    · rw [if_neg hx, gcLookup_cons, gcLookup_cons, ih]

/-! ### Dict well-formedness and the loop measure (for C2) -/

theorem gc_keys_toFinset_subset {size : ℤ} {start : Pos} {gc : List (Pos × ℕ)}
    (h : GcOK size start gc) :
    (gc.map Prod.fst).toFinset ⊆ insert start (boundsFin size) := by
  intro k hk
  rw [List.mem_toFinset, List.mem_map] at hk
  obtain ⟨q, hq, rfl⟩ := hk
  exact (h.2 q hq).1

theorem gc_length_le {size : ℤ} {start : Pos} {gc : List (Pos × ℕ)}
    (h : GcOK size start gc) : gc.length ≤ size.toNat * size.toNat + 1 := by
  have h1 : gc.length = (gc.map Prod.fst).length := (List.length_map _ _).symm
  rw [h1, ← List.toFinset_card_of_nodup h.1]
  calc ((gc.map Prod.fst).toFinset).card
      ≤ (insert start (boundsFin size)).card :=
        Finset.card_le_card (gc_keys_toFinset_subset h)
    _ ≤ (boundsFin size).card + 1 := Finset.card_insert_le _ _
    _ = size.toNat * size.toNat + 1 := by rw [card_boundsFin]

theorem gc_length_lt {size : ℤ} {start : Pos} {gc : List (Pos × ℕ)} {p : Pos}
    (h : GcOK size start gc) (hp : p ∈ insert start (boundsFin size))
    (hnone : gcLookup gc p = none) :
    gc.length + 1 ≤ size.toNat * size.toNat + 1 := by
  have h1 : gc.length = (gc.map Prod.fst).length := (List.length_map _ _).symm
  have hpk : p ∉ (gc.map Prod.fst).toFinset := by
    rw [List.mem_toFinset]
    exact gcLookup_eq_none_iff.mp hnone
  have hsub : insert p ((gc.map Prod.fst).toFinset) ⊆ insert start (boundsFin size) := by
    intro k hk
    rcases Finset.mem_insert.mp hk with rfl | hk
    · exact hp
    · exact gc_keys_toFinset_subset h hk
  have hcard := Finset.card_le_card hsub
  rw [Finset.card_insert_of_not_mem hpk, List.toFinset_card_of_nodup h.1] at hcard
  calc gc.length + 1 = (gc.map Prod.fst).length + 1 := by rw [h1]
    _ ≤ (insert start (boundsFin size)).card := hcard
    _ ≤ (boundsFin size).card + 1 := Finset.card_insert_le _ _
    _ = size.toNat * size.toNat + 1 := by rw [card_boundsFin]

/-- Effect of one accepted relaxation push on the dict: well-formedness is
preserved, and the measure credit pays for the pushed heap entry. -/
theorem gcInsert_push (size : ℤ) (start : Pos) {gc : List (Pos × ℕ)} {p : Pos}
    {v : ℕ} (hok : GcOK size start gc) (hp : p ∈ insert start (boundsFin size))
    (hv : v ≤ size.toNat * size.toNat)
    (hcond : gcLookup gc p = none ∨ ∃ old, gcLookup gc p = some old ∧ v < old) :
    GcOK size start (gcInsert gc p v) ∧
      1 + 2 * ((gcInsert gc p v).map Prod.snd).sum +
          (2 * (size.toNat * size.toNat) + 2) *
            (size.toNat * size.toNat + 1 - (gcInsert gc p v).length)
        ≤ 2 * (gc.map Prod.snd).sum +
          (2 * (size.toNat * size.toNat) + 2) *
            (size.toNat * size.toNat + 1 - gc.length) := by
  rcases hcond with hnone | ⟨old, hsome, hlt⟩
  · rw [gcInsert_of_none v hnone]
    refine ⟨⟨?_, ?_⟩, ?_⟩
    · rw [List.map_append]
      refine List.Nodup.append hok.1 (List.nodup_singleton p) ?_
      intro a ha hb
      simp only [List.map_cons, List.map_nil, List.mem_singleton] at hb
      subst hb
      exact (gcLookup_eq_none_iff.mp hnone) ha
    · intro q hq
      rcases List.mem_append.mp hq with hq | hq
      · exact hok.2 q hq
      · simp only [List.mem_singleton] at hq
        subst hq
        exact ⟨hp, hv⟩
    · have hlen := gc_length_lt hok hp hnone
      obtain ⟨k, hk⟩ : ∃ k, size.toNat * size.toNat + 1 - gc.length = k + 1 :=
        ⟨size.toNat * size.toNat - gc.length, by omega⟩
      have hk2 : size.toNat * size.toNat + 1 - (gc ++ [(p, v)]).length = k := by
        rw [List.length_append]
        simp only [List.length_cons, List.length_nil]
        omega
      rw [hk, hk2, List.map_append, List.sum_append]
      simp only [List.map_cons, List.map_nil, List.sum_cons, List.sum_nil]
      rw [Nat.mul_succ]
      omega
  · obtain ⟨l1, l2, hsplit, hins, -⟩ := gcInsert_split v hsome
    rw [hins]
    refine ⟨⟨?_, ?_⟩, ?_⟩
    · have hkeys : (l1 ++ (p, v) :: l2).map Prod.fst = gc.map Prod.fst := by
        rw [hsplit]
        simp
      rw [hkeys]
      exact hok.1
    · intro q hq
      rcases List.mem_append.mp hq with hq | hq
      · exact hok.2 q (by rw [hsplit]; exact List.mem_append_left _ hq)
      · rcases List.mem_cons.mp hq with rfl | hq
        · exact ⟨hp, hv⟩
        · exact hok.2 q
            (by rw [hsplit]; exact List.mem_append_right _ (List.mem_cons_of_mem _ hq))
    · have hlenEq : (l1 ++ (p, v) :: l2).length = gc.length := by
        rw [hsplit]
        simp
      rw [hlenEq]
      conv_rhs => rw [hsplit]
      rw [hsplit] at hlenEq ⊢
      simp only [List.map_append, List.sum_append, List.map_cons, List.sum_cons]
      omega

/-- The four neighbour cells of a cell are pairwise distinct. -/
theorem moveD_map_nodup (p : Pos) : (dirList.map (moveD p)).Nodup := by
  unfold dirList moveD Direction.value
  simp [List.nodup_cons, Prod.ext_iff]

theorem moveD_ne (p : Pos) (d : Direction) : moveD p d ≠ p := by
  cases d <;> simp [moveD, Direction.value, Prod.ext_iff] <;> omega

/-! ### The relaxation loop of one A-star iteration (for C2) -/

/-- Full description of one pass of the inner for-loop of a_star_search over a
direction list: the heap gains a block of fresh entries, the dict evolves
pointwise monotonically, every admissible neighbour ends up relaxed, dict
well-formedness is preserved, and the measure pays for every pushed entry. -/
theorem astarFold_spec (size : ℤ) (goal start : Pos) (obst : List Pos) (e : Entry) :
    ∀ ds : List Direction, (ds.map (moveD e.pos)).Nodup →
    ∀ (rest : List Entry) (gc : List (Pos × ℕ)),
      GcOK size start gc →
      (e.path ++ [e.pos]).Nodup →
      (∀ q ∈ e.path ++ [e.pos], q ∈ insert start (boundsFin size)) →
      (∀ i q, (e.path ++ [e.pos]).get? i = some q →
        ∃ m, gcLookup gc q = some m ∧ m ≤ i) →
      e.g = e.path.length →
      ∃ (pushed : List Entry) (gcNew : List (Pos × ℕ)),
        ds.foldl (astarRelax size goal obst e) (rest, gc) = (rest ++ pushed, gcNew) ∧
        (∀ x ∈ pushed, (∃ d ∈ ds, x.pos = moveD e.pos d) ∧ InB size x.pos ∧
          x.pos ∉ obst ∧ x.g = e.g + 1 ∧ x.f = e.g + 1 + heuristic x.pos goal ∧
          x.path = e.path ++ [e.pos] ∧ x.pos ∉ e.path ++ [e.pos]) ∧
        (∀ p n, gcLookup gcNew p = some n →
          gcLookup gc p = some n ∨ (n = e.g + 1 ∧ ∃ x ∈ pushed, x.pos = p)) ∧
        (∀ p n, gcLookup gc p = some n →
          ∃ n2, gcLookup gcNew p = some n2 ∧ n2 ≤ n) ∧
        (∀ x ∈ pushed, gcLookup gcNew x.pos = some (e.g + 1)) ∧
        (∀ d ∈ ds, InB size (moveD e.pos d) → moveD e.pos d ∉ obst →
          ∃ m, gcLookup gcNew (moveD e.pos d) = some m ∧ m ≤ e.g + 1) ∧
        GcOK size start gcNew ∧
        ((rest ++ pushed).length + 2 * (gcNew.map Prod.snd).sum +
            (2 * (size.toNat * size.toNat) + 2) *
              (size.toNat * size.toNat + 1 - gcNew.length)
          ≤ rest.length + 2 * (gc.map Prod.snd).sum +
            (2 * (size.toNat * size.toNat) + 2) *
              (size.toNat * size.toNat + 1 - gc.length)) ∧
        (∀ p, (∀ d ∈ ds, p ≠ moveD e.pos d) → gcLookup gcNew p = gcLookup gc p) := by
  intro ds
  induction ds with
  | nil =>
    intro _ rest gc hok _ _ _ _
    refine ⟨[], gc, by simp, ?_, ?_, ?_, ?_, ?_, hok, ?_, ?_⟩
    · intro x hx; cases hx
    · intro p n h; exact Or.inl h
    · intro p n h; exact ⟨n, h, le_rfl⟩
    · intro x hx; cases hx
    · intro d hd; cases hd
    · simp
    · intro p _; rfl
  | cons d ds ih =>
    intro hnodupMove rest gc hok hcellsnd hcellsb hidx hg
    have hnodupMove' : (ds.map (moveD e.pos)).Nodup :=
      (List.nodup_cons.mp (by simpa using hnodupMove)).2
    have hdnotin : moveD e.pos d ∉ ds.map (moveD e.pos) :=
      (List.nodup_cons.mp (by simpa using hnodupMove)).1
    have havoid : ∀ d' ∈ ds, moveD e.pos d ≠ moveD e.pos d' := by
      intro d' hd' hc
      exact hdnotin (by rw [hc]; exact List.mem_map_of_mem _ hd')
    rw [List.foldl_cons]
    by_cases hb : InB size (moveD e.pos d)
    · by_cases ho : moveD e.pos d ∈ obst
      · -- obstacle: no change in this step
        have hstep : astarRelax size goal obst e (rest, gc) d = (rest, gc) := by
          unfold astarRelax
          dsimp only
          rw [if_neg (fun hc => hc hb), if_pos ho]
        rw [hstep]
        obtain ⟨pushed, gcNew, hfold, F2, F3, F4, F5, F6, F7, F8, F10⟩ :=
          ih hnodupMove' rest gc hok hcellsnd hcellsb hidx hg
        refine ⟨pushed, gcNew, hfold, ?_, F3, F4, F5, ?_, F7, F8, ?_⟩
        · intro x hx
          obtain ⟨⟨d', hd', hxd⟩, hrest⟩ := F2 x hx
          exact ⟨⟨d', List.mem_cons_of_mem _ hd', hxd⟩, hrest⟩
        · intro d' hd' hbb hoo
          rcases List.mem_cons.mp hd' with rfl | hd'
          · exact absurd ho hoo
          · exact F6 d' hd' hbb hoo
        · intro p hp
          exact F10 p (fun d' hd' => hp d' (List.mem_cons_of_mem _ hd'))
      · -- admissible neighbour: relaxation check against the dict
        by_cases hpush : gcLookup gc (moveD e.pos d) = none ∨
            ∃ old, gcLookup gc (moveD e.pos d) = some old ∧ e.g + 1 < old
        · -- the relaxation fires: a fresh entry is pushed and the dict updated
          have hstep : astarRelax size goal obst e (rest, gc) d =
              (rest ++ [⟨e.g + 1 + heuristic (moveD e.pos d) goal, e.g + 1,
                moveD e.pos d, e.path ++ [e.pos]⟩],
               gcInsert gc (moveD e.pos d) (e.g + 1)) := by
            rcases hpush with hnone | ⟨old, hsome, hlt⟩
            · unfold astarRelax
              dsimp only
              rw [if_neg (fun hc => hc hb), if_neg ho, hnone]
            · unfold astarRelax
              dsimp only
              rw [if_neg (fun hc => hc hb), if_neg ho, hsome]
              dsimp only
              rw [if_pos hlt]
          rw [hstep]
          have hnpcells : moveD e.pos d ∉ e.path ++ [e.pos] := by
            intro hmem
            obtain ⟨i, hget⟩ := List.mem_iff_get?.mp hmem
            obtain ⟨m, hm, hmi⟩ := hidx i _ hget
            have hilen : i < (e.path ++ [e.pos]).length :=
              (List.get?_eq_some.mp hget).1
            have hlen2 : (e.path ++ [e.pos]).length = e.g + 1 := by
              rw [List.length_append]
              simp [hg]
            rcases hpush with hnone | ⟨old, hsome, hlt⟩
            · rw [hm] at hnone
              cases hnone
            · rw [hm] at hsome
              obtain rfl := Option.some_inj.mp hsome
              omega
          have hvmax : e.g + 1 ≤ size.toNat * size.toNat := by
            have hnodup2 : (moveD e.pos d :: (e.path ++ [e.pos])).Nodup :=
              List.nodup_cons.mpr ⟨hnpcells, hcellsnd⟩
            have hsub : (moveD e.pos d :: (e.path ++ [e.pos])).toFinset ⊆
                insert start (boundsFin size) := by
              intro q hq
              rw [List.mem_toFinset] at hq
              rcases List.mem_cons.mp hq with rfl | hq
              · exact Finset.mem_insert_of_mem (mem_boundsFin.mpr hb)
              · exact hcellsb q hq
            have hcard := Finset.card_le_card hsub
            rw [List.toFinset_card_of_nodup hnodup2] at hcard
            have hlen3 : (moveD e.pos d :: (e.path ++ [e.pos])).length = e.g + 2 := by
              simp [hg]
            rw [hlen3] at hcard
            have hins := Finset.card_insert_le start (boundsFin size)
            rw [card_boundsFin] at hins
            omega
          obtain ⟨hok2, hmeas1⟩ := gcInsert_push size start hok
            (Finset.mem_insert_of_mem (mem_boundsFin.mpr hb)) hvmax hpush
          have hidx2 : ∀ i q, (e.path ++ [e.pos]).get? i = some q →
              ∃ m, gcLookup (gcInsert gc (moveD e.pos d) (e.g + 1)) q = some m ∧
                m ≤ i := by
            intro i q hget
            obtain ⟨m, hm, hmi⟩ := hidx i q hget
            have hqne : q ≠ moveD e.pos d := by
              intro hc
              rw [hc] at hget
              exact hnpcells (List.get?_mem hget)
            rw [gcLookup_gcInsert_ne _ _ _ hqne]
            exact ⟨m, hm, hmi⟩
          obtain ⟨pushed2, gcNew, hfold2, F2, F3, F4, F5, F6, F7, F8, F10⟩ :=
            ih hnodupMove'
              (rest ++ [⟨e.g + 1 + heuristic (moveD e.pos d) goal, e.g + 1,
                moveD e.pos d, e.path ++ [e.pos]⟩])
              (gcInsert gc (moveD e.pos d) (e.g + 1)) hok2 hcellsnd hcellsb hidx2 hg
          refine ⟨⟨e.g + 1 + heuristic (moveD e.pos d) goal, e.g + 1,
            moveD e.pos d, e.path ++ [e.pos]⟩ :: pushed2, gcNew, ?_, ?_, ?_, ?_, ?_,
            ?_, F7, ?_, ?_⟩
          · rw [hfold2, List.append_assoc]
            rfl
          · intro x hx
            rcases List.mem_cons.mp hx with rfl | hx
            · exact ⟨⟨d, List.mem_cons_self d ds, rfl⟩, hb, ho, rfl, rfl, rfl,
                hnpcells⟩
            · obtain ⟨⟨d', hd', hxd⟩, hrest⟩ := F2 x hx
              exact ⟨⟨d', List.mem_cons_of_mem _ hd', hxd⟩, hrest⟩
          · intro p n hpn
            rcases F3 p n hpn with hcase | ⟨hn, x', hx', hxp⟩
            · by_cases hpe : p = moveD e.pos d
              · subst hpe
                rw [gcLookup_gcInsert_self] at hcase
                refine Or.inr ⟨(Option.some_inj.mp hcase).symm,
                  ⟨e.g + 1 + heuristic (moveD e.pos d) goal, e.g + 1,
                    moveD e.pos d, e.path ++ [e.pos]⟩, List.mem_cons_self _ _, rfl⟩
              · rw [gcLookup_gcInsert_ne _ _ _ hpe] at hcase
                exact Or.inl hcase
            · exact Or.inr ⟨hn, x', List.mem_cons_of_mem _ hx', hxp⟩
          · intro p n hpn
            by_cases hpe : p = moveD e.pos d
            · subst hpe
              rcases hpush with hnone | ⟨old, hsome, hlt⟩
              · rw [hpn] at hnone
                cases hnone
              · have hno : n = old := by
                  rw [hpn] at hsome
                  exact Option.some_inj.mp hsome
                obtain ⟨n2, hn2, hle⟩ := F4 _ (e.g + 1) (gcLookup_gcInsert_self _ _ _)
                exact ⟨n2, hn2, by omega⟩
            · obtain ⟨n2, hn2, hle⟩ := F4 p n
                (by rw [gcLookup_gcInsert_ne _ _ _ hpe]; exact hpn)
              exact ⟨n2, hn2, hle⟩
          · intro x hx
            rcases List.mem_cons.mp hx with rfl | hx
            · show gcLookup gcNew (moveD e.pos d) = some (e.g + 1)
              rw [F10 _ havoid]
              exact gcLookup_gcInsert_self _ _ _
            · exact F5 x hx
          · intro d' hd' hbb hoo
            rcases List.mem_cons.mp hd' with rfl | hd'
            · refine ⟨e.g + 1, ?_, le_rfl⟩
              rw [F10 _ havoid]
              exact gcLookup_gcInsert_self _ _ _
            · exact F6 d' hd' hbb hoo
          · simp only [List.length_append, List.length_cons, List.length_nil] at F8 hmeas1 ⊢
            omega
          · intro p hp
            have hpd : p ≠ moveD e.pos d := hp d (List.mem_cons_self d ds)
            rw [F10 p (fun d' hd' => hp d' (List.mem_cons_of_mem _ hd'))]
            exact gcLookup_gcInsert_ne _ _ _ hpd
        · -- the relaxation does not fire: the dict already holds a value
          -- no greater than the candidate
          push_neg at hpush
          obtain ⟨hne, hall⟩ := hpush
          obtain ⟨old, hold⟩ := Option.ne_none_iff_exists'.mp hne
          have holdle : old ≤ e.g + 1 := by
            have := hall old hold
            omega
          have hstep : astarRelax size goal obst e (rest, gc) d = (rest, gc) := by
            unfold astarRelax
            dsimp only
            rw [if_neg (fun hc => hc hb), if_neg ho, hold]
            dsimp only
            rw [if_neg (by omega : ¬ e.g + 1 < old)]
          rw [hstep]
          obtain ⟨pushed, gcNew, hfold, F2, F3, F4, F5, F6, F7, F8, F10⟩ :=
            ih hnodupMove' rest gc hok hcellsnd hcellsb hidx hg
          refine ⟨pushed, gcNew, hfold, ?_, F3, F4, F5, ?_, F7, F8, ?_⟩
          · intro x hx
            obtain ⟨⟨d', hd', hxd⟩, hrest⟩ := F2 x hx
            exact ⟨⟨d', List.mem_cons_of_mem _ hd', hxd⟩, hrest⟩
          · intro d' hd' hbb hoo
            rcases List.mem_cons.mp hd' with rfl | hd'
            · obtain ⟨n2, hn2, hle⟩ := F4 _ old hold
              exact ⟨n2, hn2, by omega⟩
            · exact F6 d' hd' hbb hoo
          · intro p hp
            exact F10 p (fun d' hd' => hp d' (List.mem_cons_of_mem _ hd'))
    · -- out of bounds: no change
      have hstep : astarRelax size goal obst e (rest, gc) d = (rest, gc) := by
        unfold astarRelax
        dsimp only
        rw [if_pos hb]
      rw [hstep]
      obtain ⟨pushed, gcNew, hfold, F2, F3, F4, F5, F6, F7, F8, F10⟩ :=
        ih hnodupMove' rest gc hok hcellsnd hcellsb hidx hg
      refine ⟨pushed, gcNew, hfold, ?_, F3, F4, F5, ?_, F7, F8, ?_⟩
      · intro x hx
        obtain ⟨⟨d', hd', hxd⟩, hrest⟩ := F2 x hx
        exact ⟨⟨d', List.mem_cons_of_mem _ hd', hxd⟩, hrest⟩
      · intro d' hd' hbb hoo
        rcases List.mem_cons.mp hd' with rfl | hd'
        · exact absurd hbb hb
        · exact F6 d' hd' hbb hoo
      · intro p hp
        exact F10 p (fun d' hd' => hp d' (List.mem_cons_of_mem _ hd'))

/-! ### One full A-star iteration preserves the invariant (for C2) -/

theorem head?_append_left {l l' : List Pos} {s : Pos} (h : l.head? = some s) :
    (l ++ l').head? = some s := by
  cases l with
  | nil => cases h
  | cons a t => simpa using h

/-- After popping a non-goal entry `e` and relaxing its four neighbours, the
loop invariant holds again for a suitable extension of the ghost closed set,
and the measure of the new state does not exceed that of the popped state. -/
theorem astar_step (size : ℤ) (goal start : Pos) (obst : List Pos) (e : Entry)
    (rest : List Entry) (gc : List (Pos × ℕ)) (C : Set Pos)
    (hentries : ∀ x ∈ rest, ValidEntry size obst start goal x)
    (hreal : ∀ p n, gcLookup gc p = some n → ReachN size obst start n p)
    (hgcle : ∀ x ∈ rest, ∃ m, gcLookup gc x.pos = some m ∧ m ≤ x.g)
    (hclosed : ∀ u ∈ C, gcLookup gc u = some (distN size obst start u) ∧
      (∀ v, Allowed size obst u v →
        ∃ m, gcLookup gc v = some m ∧ m ≤ distN size obst start u + 1))
    (hsupp : ∀ p n, gcLookup gc p = some n →
      p ∈ C ∨ distN size obst start p < n ∨ (∃ x ∈ rest, x.pos = p ∧ x.g = n) ∨
        (e.pos = p ∧ e.g = n))
    (hok : GcOK size start gc)
    (hidxAll : ∀ x ∈ rest, ∀ i q, (x.path ++ [x.pos]).get? i = some q →
      ∃ m, gcLookup gc q = some m ∧ m ≤ i)
    (hndAll : ∀ x ∈ rest, (x.path ++ [x.pos]).Nodup)
    (hbAll : ∀ x ∈ rest, ∀ q ∈ x.path ++ [x.pos], q ∈ insert start (boundsFin size))
    (hechain : (e.path ++ [e.pos]).Chain' (Allowed size obst))
    (hehead : (e.path ++ [e.pos]).head? = some start)
    (heg : e.g = e.path.length)
    (hend : (e.path ++ [e.pos]).Nodup)
    (heb : ∀ q ∈ e.path ++ [e.pos], q ∈ insert start (boundsFin size))
    (heidx : ∀ i q, (e.path ++ [e.pos]).get? i = some q →
      ∃ m, gcLookup gc q = some m ∧ m ≤ i)
    (hegcle : ∃ m, gcLookup gc e.pos = some m ∧ m ≤ e.g)
    (hstart2 : start ∈ C ∨ (e.pos = start ∧ e.g = 0))
    (hgoalC : goal ∉ C)
    (hne : e.pos ≠ goal) :
    ∃ C' : Set Pos,
      AInv size obst start goal
        (dirList.foldl (astarRelax size goal obst e) (rest, gc)).1
        (dirList.foldl (astarRelax size goal obst e) (rest, gc)).2 C' ∧
      goal ∉ C' ∧ start ∈ C' ∧
      astarPhi size (dirList.foldl (astarRelax size goal obst e) (rest, gc)).1
          (dirList.foldl (astarRelax size goal obst e) (rest, gc)).2
        ≤ astarPhi size rest gc := by
  obtain ⟨pushed, gcNew, hfold, F2, F3, F4, F5, F6, F7, F8, F10⟩ :=
    astarFold_spec size goal start obst e dirList (moveD_map_nodup e.pos)
      rest gc hok hend heb heidx heg
  rw [hfold]
  dsimp only
  have hereach : ReachN size obst start e.g e.pos := by
    rw [heg]
    exact chain_reachN size obst start e.path e.pos hechain hehead
  have hDle : distN size obst start e.pos ≤ e.g := distN_le hereach
  have hallowedPush : ∀ x ∈ pushed, Allowed size obst e.pos x.pos := by
    intro x hx
    obtain ⟨⟨d, hd, hxd⟩, hbx, hox, -⟩ := F2 x hx
    exact ⟨d, hd, hxd, hbx, hox⟩
  have hrealNew : ∀ x ∈ pushed, ReachN size obst start (e.g + 1) x.pos :=
    fun x hx => hereach.succ (hallowedPush x hx)
  have hReal' : ∀ p n, gcLookup gcNew p = some n → ReachN size obst start n p := by
    intro p n hpn
    rcases F3 p n hpn with h | ⟨rfl, x, hx, rfl⟩
    · exact hreal p n h
    · exact hrealNew x hx
  have hEntries' : ∀ x ∈ rest ++ pushed, ValidEntry size obst start goal x := by
    intro x hx
    rcases List.mem_append.mp hx with hx | hx
    · exact hentries x hx
    · obtain ⟨-, hbx, hox, hgx, hfx, hpathx, -⟩ := F2 x hx
      have hxcells : x.path ++ [x.pos] = (e.path ++ [e.pos]) ++ [x.pos] := by
        rw [hpathx]
      refine ⟨?_, ?_, ?_, ?_⟩
      · rw [hxcells, List.chain'_append]
        refine ⟨hechain, List.chain'_singleton _, ?_⟩
        intro a ha b hb
        rw [List.getLast?_concat] at ha
        simp only [List.head?_cons, Option.mem_def, Option.some_inj] at ha hb
        rw [← ha, ← hb]
        exact hallowedPush x hx
      · rw [hxcells]
        exact head?_append_left hehead
      · rw [hgx, hpathx, List.length_append]
        simp [heg]
      · rw [hfx, hgx]
  have hGcle' : ∀ x ∈ rest ++ pushed, ∃ m, gcLookup gcNew x.pos = some m ∧ m ≤ x.g := by
    intro x hx
    rcases List.mem_append.mp hx with hx | hx
    · obtain ⟨m, hm, hmle⟩ := hgcle x hx
      obtain ⟨n2, hn2, hn2le⟩ := F4 x.pos m hm
      exact ⟨n2, hn2, le_trans hn2le hmle⟩
    · obtain ⟨-, -, -, hgx, -⟩ := F2 x hx
      exact ⟨e.g + 1, F5 x hx, by omega⟩
  have hIdx' : ∀ x ∈ rest ++ pushed, ∀ i q, (x.path ++ [x.pos]).get? i = some q →
      ∃ m, gcLookup gcNew q = some m ∧ m ≤ i := by
    intro x hx i q hget
    rcases List.mem_append.mp hx with hx | hx
    · obtain ⟨m, hm, hmle⟩ := hidxAll x hx i q hget
      obtain ⟨n2, hn2, hn2le⟩ := F4 q m hm
      exact ⟨n2, hn2, le_trans hn2le hmle⟩
    · obtain ⟨-, -, -, hgx, -, hpathx, -⟩ := F2 x hx
      have hxcells : x.path ++ [x.pos] = (e.path ++ [e.pos]) ++ [x.pos] := by
        rw [hpathx]
      rw [hxcells] at hget
      have hlen2 : (e.path ++ [e.pos]).length = e.g + 1 := by
        rw [List.length_append]
        simp [heg]
      by_cases hi : i < (e.path ++ [e.pos]).length
      · rw [List.get?_append hi] at hget
        obtain ⟨m, hm, hmle⟩ := heidx i q hget
        obtain ⟨n2, hn2, hn2le⟩ := F4 q m hm
        exact ⟨n2, hn2, le_trans hn2le hmle⟩
      · have hi2 : i = e.g + 1 := by
          have hib : i < ((e.path ++ [e.pos]) ++ [x.pos]).length :=
            (List.get?_eq_some.mp hget).1
          rw [List.length_append, hlen2] at hib
          simp only [List.length_cons, List.length_nil] at hib
          omega
        have hq : q = x.pos := by
          rw [hi2, ← hlen2] at hget
          rw [List.get?_concat_length] at hget
          exact (Option.some_inj.mp hget).symm
        rw [hq]
        exact ⟨e.g + 1, F5 x hx, by omega⟩
  have hNd' : ∀ x ∈ rest ++ pushed, (x.path ++ [x.pos]).Nodup := by
    intro x hx
    rcases List.mem_append.mp hx with hx | hx
    · exact hndAll x hx
    · obtain ⟨-, -, -, -, -, hpathx, hxnotin⟩ := F2 x hx
      rw [hpathx]
      have hperm : ((e.path ++ [e.pos]) ++ [x.pos]).Perm
          (x.pos :: (e.path ++ [e.pos])) := List.perm_append_comm
      rw [hperm.nodup_iff]
      exact List.nodup_cons.mpr ⟨hxnotin, hend⟩
  have hBound' : ∀ x ∈ rest ++ pushed, ∀ q ∈ x.path ++ [x.pos],
      q ∈ insert start (boundsFin size) := by
    intro x hx q hq
    rcases List.mem_append.mp hx with hx | hx
    · exact hbAll x hx q hq
    · obtain ⟨-, hbx, -, -, -, hpathx, -⟩ := F2 x hx
      rw [hpathx] at hq
      rcases List.mem_append.mp hq with hq | hq
      · exact heb q hq
      · simp only [List.mem_singleton] at hq
        rw [hq]
        exact Finset.mem_insert_of_mem (mem_boundsFin.mpr hbx)
  have hPhi : astarPhi size (rest ++ pushed) gcNew ≤ astarPhi size rest gc := by
    unfold astarPhi
    exact F8
  by_cases hCe : e.g = distN size obst start e.pos
  · refine ⟨C ∪ {e.pos}, ⟨hEntries', hReal', hGcle', ?_, ?_, F7, hIdx', hNd', hBound'⟩,
      ?_, ?_, hPhi⟩
    · intro u hu
      rcases hu with hu | hu
      · obtain ⟨hval, hnb⟩ := hclosed u hu
        obtain ⟨n2, hn2, hn2le⟩ := F4 u _ hval
        have hn2ge : distN size obst start u ≤ n2 := distN_le (hReal' u n2 hn2)
        have hn2eq : n2 = distN size obst start u := le_antisymm hn2le hn2ge
        refine ⟨hn2eq ▸ hn2, ?_⟩
        intro v hv
        obtain ⟨m, hm, hmle⟩ := hnb v hv
        obtain ⟨m2, hm2, hm2le⟩ := F4 v m hm
        exact ⟨m2, hm2, le_trans hm2le hmle⟩
      · simp only [Set.mem_singleton_iff] at hu
        subst hu
        obtain ⟨m0, hm0, hm0le⟩ := hegcle
        obtain ⟨n2, hn2, hn2le⟩ := F4 _ m0 hm0
        have hn2ge : distN size obst start e.pos ≤ n2 := distN_le (hReal' _ n2 hn2)
        have hn2eq : n2 = distN size obst start e.pos := by omega
        refine ⟨hn2eq ▸ hn2, ?_⟩
        intro v hv
        obtain ⟨d, hd, hvd, hbv, hov⟩ := hv
        obtain ⟨m, hm, hmle⟩ := F6 d hd (hvd ▸ hbv) (hvd ▸ hov)
        rw [← hvd] at hm
        exact ⟨m, hm, by omega⟩
    · intro p n hpn
      rcases F3 p n hpn with h | ⟨rfl, x, hx, rfl⟩
      · rcases hsupp p n h with hc | hc | ⟨x, hx, hxp, hxg⟩ | ⟨hep, heg2⟩
        · exact Or.inl (Or.inl hc)
        · exact Or.inr (Or.inl hc)
        · exact Or.inr (Or.inr ⟨x, List.mem_append_left _ hx, hxp, hxg⟩)
        · exact Or.inl (Or.inr (by rw [← hep]; rfl))
      · obtain ⟨-, -, -, hgx, -⟩ := F2 x hx
        exact Or.inr (Or.inr ⟨x, List.mem_append_right _ hx, rfl, hgx⟩)
    · intro hc
      rcases hc with hc | hc
      · exact hgoalC hc
      · exact hne (by simpa using hc.symm)
    · rcases hstart2 with hs | ⟨hs, -⟩
      · exact Or.inl hs
      · exact Or.inr (by rw [hs]; rfl)
  · have hDlt : distN size obst start e.pos < e.g := lt_of_le_of_ne hDle
      (fun hc => hCe hc.symm)
    refine ⟨C, ⟨hEntries', hReal', hGcle', ?_, ?_, F7, hIdx', hNd', hBound'⟩,
      hgoalC, ?_, hPhi⟩
    · intro u hu
      obtain ⟨hval, hnb⟩ := hclosed u hu
      obtain ⟨n2, hn2, hn2le⟩ := F4 u _ hval
      have hn2ge : distN size obst start u ≤ n2 := distN_le (hReal' u n2 hn2)
      have hn2eq : n2 = distN size obst start u := le_antisymm hn2le hn2ge
      refine ⟨hn2eq ▸ hn2, ?_⟩
      intro v hv
      obtain ⟨m, hm, hmle⟩ := hnb v hv
      obtain ⟨m2, hm2, hm2le⟩ := F4 v m hm
      exact ⟨m2, hm2, le_trans hm2le hmle⟩
    · intro p n hpn
      rcases F3 p n hpn with h | ⟨rfl, x, hx, rfl⟩
      · rcases hsupp p n h with hc | hc | ⟨x, hx, hxp, hxg⟩ | ⟨hep, heg2⟩
        · exact Or.inl hc
        · exact Or.inr (Or.inl hc)
        · exact Or.inr (Or.inr ⟨x, List.mem_append_left _ hx, hxp, hxg⟩)
        · refine Or.inr (Or.inl ?_)
          rw [← hep, ← heg2]
          exact hDlt
      · obtain ⟨-, -, -, hgx, -⟩ := F2 x hx
        exact Or.inr (Or.inr ⟨x, List.mem_append_right _ hx, rfl, hgx⟩)
    · rcases hstart2 with hs | ⟨hs, hg0⟩
      · exact hs
      · exfalso
        apply hCe
        rw [hg0, hs, distN_self]

/-! ### The frontier lemma and the main loop induction (for C2) -/

/-- Frontier lemma: walking a shortest path from a closed cell towards an
unclosed reachable cell, the dict stays optimal step by step until a live open
entry with optimal g is found that still lies on a shortest path to the target. -/
theorem astar_walk (size : ℤ) (goal start : Pos) (obst : List Pos)
    (openL : List Entry) (gc : List (Pos × ℕ)) (C : Set Pos)
    (hreal : ∀ p n, gcLookup gc p = some n → ReachN size obst start n p)
    (hclosed : ∀ u ∈ C, gcLookup gc u = some (distN size obst start u) ∧
      (∀ v, Allowed size obst u v →
        ∃ m, gcLookup gc v = some m ∧ m ≤ distN size obst start u + 1))
    (hsupp : ∀ p n, gcLookup gc p = some n →
      p ∈ C ∨ distN size obst start p < n ∨ ∃ x ∈ openL, x.pos = p ∧ x.g = n) :
    ∀ (m : ℕ) (y z : Pos), y ∈ C → z ∉ C →
      ReachN size obst y m z →
      distN size obst start y + m = distN size obst start z →
      ∃ x ∈ openL, x.g = distN size obst start x.pos ∧
        ∃ m2, ReachN size obst x.pos m2 z ∧
          distN size obst start x.pos + m2 = distN size obst start z := by
  intro m
  induction m with
  | zero =>
    intro y z hy hz hr _
    rw [reachN_zero_iff.mp hr] at hz
    exact absurd hy hz
  | succ m ih =>
    intro y z hy hz hr hd
    obtain ⟨v, hyv, hvz⟩ := reachN_first_step hr
    obtain ⟨mv, hmv, hmvle⟩ := (hclosed y hy).2 v hyv
    have hvreach : ReachN size obst start mv v := hreal v mv hmv
    have hDvle : distN size obst start v ≤ mv := distN_le hvreach
    have hzle : distN size obst start z ≤ distN size obst start v + m :=
      distN_le (reachN_trans (distN_reachN ⟨mv, hvreach⟩) hvz)
    have hDv : distN size obst start v = distN size obst start y + 1 := by omega
    have hmveq : mv = distN size obst start v := by omega
    rcases hsupp v mv hmv with hvC | hlt | ⟨x, hx, hxp, hxg⟩
    · exact ih v z hvC hz hvz (by omega)
    · omega
    · refine ⟨x, hx, by rw [hxp, hxg, hmveq], m, ?_, ?_⟩
      · rw [hxp]
        exact hvz
      · rw [hxp]
        omega

/-- Main induction: with the invariant and enough fuel, the A-star loop
terminates; a returned path is a valid minimal-length walk from start to goal,
and a none return means the goal is unreachable. -/
theorem aStarLoop_spec (size : ℤ) (goal start : Pos) (obst : List Pos) :
    ∀ (fuel : ℕ) (openL : List Entry) (gc : List (Pos × ℕ)) (C : Set Pos),
      AInv size obst start goal openL gc C →
      goal ∉ C → start ∈ C →
      astarPhi size openL gc < fuel →
      ∃ r, aStarLoop size goal obst fuel openL gc = some r ∧
        (∀ p, r = some p → IsPath size obst start goal p ∧
          (∀ l, IsPath size obst start goal l → p.length ≤ l.length)) ∧
        (r = none → ¬ Reaches size obst start goal) := by
  intro fuel
  induction fuel with
  | zero =>
    intro openL gc C _ _ _ hmeas
    omega
  | succ fuel ih =>
    intro openL gc C hinv hgoalC hstartC hmeas
    have hrun1 : aStarLoop size goal obst (fuel + 1) openL gc
        = match popMin openL with
          | none => some none
          | some (e, rest) =>
            if e.pos = goal then some (some (e.path ++ [e.pos]))
            else aStarLoop size goal obst fuel
              (dirList.foldl (astarRelax size goal obst e) (rest, gc)).1
              (dirList.foldl (astarRelax size goal obst e) (rest, gc)).2 := rfl
    cases hpop : popMin openL with
    | none =>
      rw [hpop] at hrun1
      have hopenNil : openL = [] := popMin_eq_none.mp hpop
      refine ⟨none, hrun1, ?_, ?_⟩
      · intro p hp
        cases hp
      · intro _ hreach
        obtain ⟨x, hx, -⟩ := astar_walk size goal start obst openL gc C
          hinv.realizable hinv.closedOpt hinv.support
          (distN size obst start goal) start goal hstartC hgoalC
          (distN_reachN hreach) (by rw [distN_self, Nat.zero_add])
        rw [hopenNil] at hx
        cases hx
    | some er =>
      obtain ⟨e, rest⟩ := er
      rw [hpop] at hrun1
      replace hrun1 : aStarLoop size goal obst (fuel + 1) openL gc
          = if e.pos = goal then some (some (e.path ++ [e.pos]))
            else aStarLoop size goal obst fuel
              (dirList.foldl (astarRelax size goal obst e) (rest, gc)).1
              (dirList.foldl (astarRelax size goal obst e) (rest, gc)).2 := hrun1
      obtain ⟨hmem, hperm, hmin⟩ := popMin_spec hpop
      obtain ⟨hchain, hhead, hgl, hf⟩ := hinv.entries e hmem
      by_cases hgoalPop : e.pos = goal
      · rw [if_pos hgoalPop] at hrun1
        refine ⟨some (e.path ++ [e.pos]), hrun1, ?_, ?_⟩
        · intro p hp
          obtain rfl := (Option.some_inj.mp hp).symm
          have hereach : ReachN size obst start e.g goal := by
            rw [← hgoalPop, hgl]
            exact chain_reachN size obst start e.path e.pos hchain hhead
          have hge : distN size obst start goal ≤ e.g := distN_le hereach
          have hgoalReach : Reaches size obst start goal := ⟨_, hereach⟩
          have hgeq : e.g = distN size obst start goal := by
            by_contra hne2
            obtain ⟨x, hx, hxg, m2, hm2, hm2d⟩ := astar_walk size goal start obst
              openL gc C hinv.realizable hinv.closedOpt hinv.support
              (distN size obst start goal) start goal hstartC hgoalC
              (distN_reachN hgoalReach) (by rw [distN_self, Nat.zero_add])
            have hxf : x.f = x.g + heuristic x.pos goal :=
              (hinv.entries x hx).2.2.2
            have hcons := heuristic_consistent goal hm2
            rw [heuristic_self] at hcons
            have hfle := entryKey_le_f (hmin x hx)
            have hef : e.f = e.g := by
              rw [hf, hgoalPop, heuristic_self, Nat.add_zero]
            omega
          refine ⟨⟨hhead, ?_, ?_⟩, ?_⟩
          · rw [List.getLast?_concat, hgoalPop]
          · exact hchain
          · intro l hl
            have hlge : distN size obst start goal ≤ l.length - 1 :=
              distN_le (isPath_reachN hl)
            have hplen : (e.path ++ [e.pos]).length = e.g + 1 := by
              rw [List.length_append]
              simp [hgl]
            have hlne : l ≠ [] := by
              intro hnil
              rw [hnil] at hl
              cases hl.1
            have hlpos : 1 ≤ l.length := List.length_pos.mpr hlne
            omega
        · intro hc
          cases hc
      · rw [if_neg hgoalPop] at hrun1
        have hmemrest : ∀ x ∈ rest, x ∈ openL :=
          fun x hx => hperm.mem_iff.mpr (List.mem_cons_of_mem _ hx)
        have hsupp4 : ∀ p n, gcLookup gc p = some n →
            p ∈ C ∨ distN size obst start p < n ∨
              (∃ x ∈ rest, x.pos = p ∧ x.g = n) ∨ (e.pos = p ∧ e.g = n) := by
          intro p n hpn
          rcases hinv.support p n hpn with hc | hc | ⟨x, hx, hxp, hxg⟩
          · exact Or.inl hc
          · exact Or.inr (Or.inl hc)
          · rcases List.mem_cons.mp (hperm.mem_iff.mp hx) with rfl | hx3
            · exact Or.inr (Or.inr (Or.inr ⟨hxp, hxg⟩))
            · exact Or.inr (Or.inr (Or.inl ⟨x, hx3, hxp, hxg⟩))
        obtain ⟨C', hinv', hgoal', hstart', hphi'⟩ :=
          astar_step size goal start obst e rest gc C
            (fun x hx => hinv.entries x (hmemrest x hx))
            hinv.realizable
            (fun x hx => hinv.gcle x (hmemrest x hx))
            hinv.closedOpt hsupp4 hinv.gcok
            (fun x hx => hinv.eIdx x (hmemrest x hx))
            (fun x hx => hinv.eNodup x (hmemrest x hx))
            (fun x hx => hinv.eBound x (hmemrest x hx))
            hchain hhead hgl
            (hinv.eNodup e hmem) (hinv.eBound e hmem) (hinv.eIdx e hmem)
            (hinv.gcle e hmem)
            (Or.inl hstartC)
            hgoalC hgoalPop
        have hlenrest : openL.length = rest.length + 1 := by
          have hpl := hperm.length_eq
          simp only [List.length_cons] at hpl
          omega
        have hphi2 : astarPhi size rest gc < astarPhi size openL gc := by
          unfold astarPhi
          omega
        obtain ⟨r, hrun, hsome, hnone⟩ := ih
          (dirList.foldl (astarRelax size goal obst e) (rest, gc)).1
          (dirList.foldl (astarRelax size goal obst e) (rest, gc)).2
          C' hinv' hgoal' hstart' (by omega)
        exact ⟨r, by rw [hrun1]; exact hrun, hsome, hnone⟩

/-- C2: a_star_search returns a path that starts at start, ends at goal, walks
only through in-bounds non-obstacle cells (obstacles being the body minus the
start and goal cells), and has minimal length among all such paths, whenever
one exists; and it returns none exactly when no such path exists (the frontier
empties before the goal is dequeued). -/
theorem a_star_search_correct (start goal : Pos) (size : ℤ) (snake_body : List Pos) :
    (∀ p, a_star_search start goal size snake_body = some p →
      IsPath size (astarObstacles snake_body start goal) start goal p ∧
      ∀ l, IsPath size (astarObstacles snake_body start goal) start goal l →
        p.length ≤ l.length) ∧
    (a_star_search start goal size snake_body = none ↔
      ¬ ∃ l, IsPath size (astarObstacles snake_body start goal) start goal l) := by
  have hsq : size.toNat ^ 2 = size.toNat * size.toNat := sq size.toNat
  set obst := astarObstacles snake_body start goal with hobst
  have hpop0 : popMin [(⟨0, 0, start, []⟩ : Entry)]
      = some (⟨0, 0, start, []⟩, []) := by
    unfold popMin
    rw [List.argmin_singleton]
    dsimp only
    rw [List.erase_cons_head]
  have hF : astarFuel size
      = (4 + 2 * size.toNat ^ 2 * (size.toNat ^ 2 + 1) +
          (2 * size.toNat ^ 2 + 2) * (size.toNat ^ 2 + 1) + 1) + 1 := rfl
  have hrun1 : aStarLoop size goal obst (astarFuel size) [⟨0, 0, start, []⟩]
        [(start, 0)]
      = match popMin [(⟨0, 0, start, []⟩ : Entry)] with
        | none => some none
        | some (e, rest) =>
          if e.pos = goal then some (some (e.path ++ [e.pos]))
          else aStarLoop size goal obst
            (4 + 2 * size.toNat ^ 2 * (size.toNat ^ 2 + 1) +
              (2 * size.toNat ^ 2 + 2) * (size.toNat ^ 2 + 1) + 1)
            (dirList.foldl (astarRelax size goal obst e) (rest, [(start, 0)])).1
            (dirList.foldl (astarRelax size goal obst e) (rest, [(start, 0)])).2 := by
    rw [hF]
    rfl
  rw [hpop0] at hrun1
  replace hrun1 : aStarLoop size goal obst (astarFuel size) [⟨0, 0, start, []⟩]
        [(start, 0)]
      = if start = goal then some (some [start])
        else aStarLoop size goal obst
          (4 + 2 * size.toNat ^ 2 * (size.toNat ^ 2 + 1) +
            (2 * size.toNat ^ 2 + 2) * (size.toNat ^ 2 + 1) + 1)
          (dirList.foldl (astarRelax size goal obst ⟨0, 0, start, []⟩)
            ([], [(start, 0)])).1
          (dirList.foldl (astarRelax size goal obst ⟨0, 0, start, []⟩)
            ([], [(start, 0)])).2 := hrun1
  have hlook0 : ∀ p n, gcLookup [(start, 0)] p = some n → p = start ∧ n = 0 := by
    intro p n h
    rw [gcLookup_cons] at h
    by_cases hp : start = p
    · rw [if_pos hp] at h
      exact ⟨hp.symm, (Option.some_inj.mp h).symm⟩
    · rw [if_neg hp] at h
      cases h
  by_cases hsg : start = goal
  · -- trivial zero-length path: the first pop returns [start]
    rw [if_pos hsg] at hrun1
    have hres : a_star_search start goal size snake_body = some [start] := by
      unfold a_star_search
      rw [← hobst, hrun1]
      rfl
    constructor
    · intro p hp
      rw [hres] at hp
      obtain rfl := (Option.some_inj.mp hp).symm
      refine ⟨⟨rfl, by rw [hsg]; rfl, List.chain'_singleton start⟩, ?_⟩
      intro l hl
      have hlne : l ≠ [] := by
        intro hnil
        rw [hnil] at hl
        cases hl.1
      have := List.length_pos.mpr hlne
      simpa using this
    · rw [hres]
      constructor
      · intro hc
        cases hc
      · intro hc
        exact absurd ⟨[start], ⟨rfl, by rw [hsg]; rfl, List.chain'_singleton start⟩⟩ hc
  · -- general case: one manual iteration establishes the invariant
    rw [if_neg hsg] at hrun1
    obtain ⟨C', hinv', hgoal', hstart', hphi'⟩ :=
      astar_step size goal start obst ⟨0, 0, start, []⟩ [] [(start, 0)] ∅
        (by intro x hx; cases hx)
        (by
          intro p n h
          obtain ⟨rfl, rfl⟩ := hlook0 p n h
          exact .zero)
        (by intro x hx; cases hx)
        (by intro u hu; cases hu)
        (by
          intro p n h
          obtain ⟨rfl, rfl⟩ := hlook0 p n h
          exact Or.inr (Or.inr (Or.inr ⟨rfl, rfl⟩)))
        (by
          constructor
          · simp
          · intro q hq
            simp only [List.mem_singleton] at hq
            subst hq
            exact ⟨Finset.mem_insert_self _ _, by omega⟩)
        (by intro x hx; cases hx)
        (by intro x hx; cases hx)
        (by intro x hx; cases hx)
        (List.chain'_singleton start)
        rfl
        rfl
        (List.nodup_singleton start)
        (by
          intro q hq
          simp only [List.nil_append, List.mem_singleton] at hq
          subst hq
          exact Finset.mem_insert_self _ _)
        (by
          intro i q hget
          match i, hget with
          | 0, hget =>
            have hq : q = start := by
              simpa using (Option.some_inj.mp hget).symm
            subst hq
            exact ⟨0, by rw [gcLookup_cons]; simp, le_rfl⟩)
        ⟨0, by rw [gcLookup_cons]; simp, le_rfl⟩
        (Or.inr ⟨rfl, rfl⟩)
        (by intro hc; cases hc)
        hsg
    have hphi0 : astarPhi size [] [(start, 0)]
        = (2 * (size.toNat * size.toNat) + 2) * (size.toNat * size.toNat) := by
      unfold astarPhi
      simp
    have hfuelOK : astarPhi size
        (dirList.foldl (astarRelax size goal obst ⟨0, 0, start, []⟩)
          ([], [(start, 0)])).1
        (dirList.foldl (astarRelax size goal obst ⟨0, 0, start, []⟩)
          ([], [(start, 0)])).2
        < 4 + 2 * size.toNat ^ 2 * (size.toNat ^ 2 + 1) +
          (2 * size.toNat ^ 2 + 2) * (size.toNat ^ 2 + 1) + 1 := by
      rw [hphi0] at hphi'
      rw [hsq]
      have hexp : (2 * (size.toNat * size.toNat) + 2) * (size.toNat * size.toNat + 1)
          = (2 * (size.toNat * size.toNat) + 2) * (size.toNat * size.toNat) +
            (2 * (size.toNat * size.toNat) + 2) := by ring
      omega
    obtain ⟨r, hrun, hsome, hnone⟩ := aStarLoop_spec size goal start obst
      (4 + 2 * size.toNat ^ 2 * (size.toNat ^ 2 + 1) +
        (2 * size.toNat ^ 2 + 2) * (size.toNat ^ 2 + 1) + 1)
      (dirList.foldl (astarRelax size goal obst ⟨0, 0, start, []⟩)
        ([], [(start, 0)])).1
      (dirList.foldl (astarRelax size goal obst ⟨0, 0, start, []⟩)
        ([], [(start, 0)])).2
      C' hinv' hgoal' hstart' hfuelOK
    have hres : a_star_search start goal size snake_body = r := by
      unfold a_star_search
      rw [← hobst, hrun1, hrun]
      rfl
    rw [hres]
    constructor
    · exact hsome
    · constructor
      · intro hc
        intro ⟨l, hl⟩
        exact hnone hc (isPath_reaches hl)
      · intro hc
        cases hr : r with
        | none => rfl
        | some p =>
          exact absurd ⟨p, (hsome p hr).1⟩ hc

/-- Witness for C2 on a concrete board: the returned path is valid and not
longer than a concrete alternative path. -/
theorem a_star_search_correct_witness :
    IsPath 2 (astarObstacles [] (0, 0) (1, 0)) (0, 0) (1, 0) [(0, 0), (1, 0)] ∧
      ([(0, 0), (1, 0)] : List Pos).length
        ≤ ([(0, 0), (0, 1), (1, 1), (1, 0)] : List Pos).length := by
  have h := (a_star_search_correct (0, 0) (1, 0) 2 []).1 [(0, 0), (1, 0)] (by decide)
  exact ⟨h.1, h.2 [(0, 0), (0, 1), (1, 1), (1, 0)] (by decide)⟩

end SnakeSpec
